import Mathlib

/-!
# Verification of the `contabilita.py` reconciliation core

A shallow embedding of the matching core of `contabilita.py`:

* `pulisci_valuta`            — the amount parser (§ "FUNZIONI DI PULIZIA");
* `normalizza_nome_cliente`   — the name normalizer;
* `SeqM.ratio`                — `difflib.SequenceMatcher(None, a, b).ratio()`,
                                the similarity scorer called by the engine;
* `riconcilia_transazioni`    — the greedy reconciliation engine.

Modelling conventions:
* Python `float` values are modelled as exact rationals (`ℚ`); string
  characters are restricted to the ASCII fragment, over which Python's
  `str.upper`, `re` character classes and `difflib` agree with the
  definitions below.
* Python dictionaries/sets whose only observed operations are lookup and
  membership are modelled as functions and lists.
* `pandas` operations are transcribed pointwise: `df.index` becomes the
  positional index of the entry list, boolean-mask filtering becomes
  `List.filter`, and `sort_values` becomes a stable insertion sort on the
  amount key (the quicksort used by pandas is deterministic but leaves the
  relative order of equal keys unspecified; the embedding fixes the stable
  order, which agrees with it whenever amounts are distinct).
-/

set_option maxRecDepth 4000

namespace Contabilita

/-- A Python cell value as it can occur in an input column: an `int`, a
`float` (modelled as an exact rational), a `str` (as a character list), or
any other object (`None`, `NaN` markers, timestamps, …). -/
inductive PyVal where
  | int (n : Int)
  | float (q : ℚ)
  | str (s : List Char)
  | other
  deriving DecidableEq, Repr

/-- Is this value a Python `str`? -/
def PyVal.isStr : PyVal → Bool
  | .str _ => true
  | _ => false

/-! ## Character helpers (ASCII fragment of Python's `re` classes) -/

/-- ASCII fragment of Python's regex `\s` / `str.strip` whitespace. -/
def isPySpace (c : Char) : Bool :=
  c = ' ' || c = '\t' || c = '\n' || c = '\r' || c = '\x0b' || c = '\x0c'

/-- ASCII letter, the class `[A-Za-z]`. -/
def isAsciiLetter (c : Char) : Bool :=
  ('A' ≤ c && c ≤ 'Z') || ('a' ≤ c && c ≤ 'z')

/-- ASCII digit `[0-9]`. -/
def isDigitC (c : Char) : Bool :=
  '0' ≤ c && c ≤ '9'

/-- ASCII fragment of the regex word class `\w` (used by `\b`). -/
def isWordC (c : Char) : Bool :=
  isAsciiLetter c || isDigitC c || c = '_'

/-- `str.upper` on the ASCII fragment. -/
def pyUpper (c : Char) : Char :=
  if 'a' ≤ c && c ≤ 'z' then Char.ofNat (c.toNat - 32) else c

/-! ## `pulisci_valuta` — the amount parser

```python
def pulisci_valuta(valore):
    if isinstance(valore, (int, float)):
        return float(valore)
    if isinstance(valore, str):
        valore_pulito = re.sub(r'[A-Za-z\s\.]', '', valore).replace(',', '.')
        if valore_pulito:
            try:
                return float(valore_pulito)
            except ValueError:
                return 0.0
    return 0.0
```
-/

/-- `re.sub(r'[A-Za-z\s\.]', '', valore).replace(',', '.')`. -/
def cleanValuta (s : List Char) : List Char :=
  (s.filter (fun c => !(isAsciiLetter c || isPySpace c || c = '.'))).map
    (fun c => if c = ',' then '.' else c)

/-- Parse `(digit | '_' digit)*` (the continuation of a digit run in Python's
`float()` grammar, where each underscore must sit between two digits);
returns the digits read (underscores dropped) and the unread remainder, or
`none` on a misplaced underscore. -/
def digitsURest : List Char → Option (List Char × List Char)
  | [] => some ([], [])
  | c :: rest =>
    if isDigitC c then
      (digitsURest rest).map (fun p => (c :: p.1, p.2))
    else if c = '_' then
      match rest with
      | d :: rest2 =>
        if isDigitC d then (digitsURest rest2).map (fun p => (d :: p.1, p.2))
        else none
      | [] => none
    else some ([], c :: rest)

/-- A possibly-empty digit run: empty unless the first character is a digit. -/
def digitsU (s : List Char) : Option (List Char × List Char) :=
  match s with
  | c :: rest =>
    if isDigitC c then (digitsURest rest).map (fun p => (c :: p.1, p.2))
    else some ([], s)
  | [] => some ([], [])

/-- Numeric value of a digit list read in base 10. -/
def digitsVal (ds : List Char) : ℕ :=
  ds.foldl (fun n c => 10 * n + (c.toNat - 48)) 0

/-- Value of a fractional digit list. -/
def fracVal (ds : List Char) : ℚ :=
  (digitsVal ds : ℚ) / (10 ^ ds.length)

/-- Unsigned part of Python's `float()` literal grammar, restricted to the
characters that can survive `cleanValuta` (no letters, hence no exponent and
no `inf`/`nan`): `digits ['.' [digits]] | '.' digits`. -/
def parseUnsigned (s : List Char) : Option ℚ :=
  match s with
  | '.' :: rest =>
    match digitsU rest with
    | some (ds, []) => if ds = [] then none else some (fracVal ds)
    | _ => none
  | _ =>
    match digitsU s with
    | some (ds, rest) =>
      if ds = [] then none
      else
        match rest with
        | [] => some ((digitsVal ds : ℚ))
        | '.' :: rest2 =>
          match digitsU rest2 with
          | some (fs, []) => some ((digitsVal ds : ℚ) + fracVal fs)
          | _ => none
        | _ => none
    | none => none

/-- Python `float(string)` on the character set reachable after cleaning:
an optional sign followed by the unsigned literal.  `none` models
`ValueError`. -/
def parsePyFloat (s : List Char) : Option ℚ :=
  match s with
  | '+' :: rest => parseUnsigned rest
  | '-' :: rest => (parseUnsigned rest).map (fun q => -q)
  | _ => parseUnsigned s

/-- `pulisci_valuta` (lines 9–21). -/
def pulisci_valuta : PyVal → ℚ
  | .int n => (n : ℚ)
  | .float q => q
  | .str s =>
    let valore_pulito := cleanValuta s
    if valore_pulito ≠ [] then
      match parsePyFloat valore_pulito with
      | some q => q
      | none => 0
    else 0
  | .other => 0

/-! ## `normalizza_nome_cliente` — the name normalizer

```python
def normalizza_nome_cliente(descrizione):
    if not isinstance(descrizione, str): return "N/D"
    nome = descrizione.upper()
    nome = re.sub(r'^(BDS-\s*)?BON VITTORIA SIN\s*', '', nome)
    parole_da_rimuovere = ['SNC', 'SAS', 'SRL', 'SPA', 'DI', '&', 'C',
                           'ESTINTORI', 'TRAPUNTIFICIO', 'ARREDAMENT']
    for parola in parole_da_rimuovere:
        nome = re.sub(r'\b' + re.escape(parola) + r'\b', '', nome)
    nome_pulito = re.sub(r'\s+', ' ', nome).strip()
    return nome_pulito or "N/D"
```
-/

/-- The sentinel token `"N/D"`. -/
def NDtok : List Char := ['N', '/', 'D']

/-- Word-character test on an optional character, as used by `\b`: the
absent character (string edge) counts as a non-word character. -/
def wordB : Option Char → Bool
  | none => false
  | some c => isWordC c

/-- Does a whole-word occurrence of `w` start here?  `prev` is the character
of the original string just before the current position, `s` the remainder
from the current position on. -/
def wordMatchAt (w : List Char) (prev : Option Char) (s : List Char) : Bool :=
  !w.isEmpty && w.isPrefixOf s &&
    (wordB prev != wordB w.head?) &&
    (wordB w.getLast? != wordB (s.drop w.length).head?)

/-- `re.sub(r'\b' + re.escape(w) + r'\b', '', s)`: removes every
non-overlapping whole-word occurrence of `w`, scanning left to right.
`prev` is the left context of the word-boundary test; each step consumes at
least one character, so `fuel = s.length` suffices (the `fuel = 0` branch is
never reached from `subWord`). -/
def subWordAux (w : List Char) : Nat → Option Char → List Char → List Char
  | _, _, [] => []
  | 0, _, s => s
  | fuel + 1, prev, c :: rest =>
    if wordMatchAt w prev (c :: rest) then
      subWordAux w fuel w.getLast? ((c :: rest).drop w.length)
    else
      c :: subWordAux w fuel (some c) rest

/-- Whole-word removal of `w` from `s`. -/
def subWord (w : List Char) (s : List Char) : List Char :=
  subWordAux w s.length none s

/-- `"BON VITTORIA SIN"`. -/
def BVStok : List Char := "BON VITTORIA SIN".toList

/-- `"BDS-"`. -/
def BDStok : List Char := "BDS-".toList

/-- `re.sub(r'^(BDS-\s*)?BON VITTORIA SIN\s*', '', nome)`: the anchored
pattern matches at most once, at the start; the optional group is tried
(greedily) first and the plain alternative is the backtrack. -/
def stripPrefBVS (s : List Char) : List Char :=
  let after : List Char → Option (List Char) := fun t =>
    if BVStok.isPrefixOf t then some ((t.drop BVStok.length).dropWhile isPySpace)
    else none
  match (if BDStok.isPrefixOf s then after ((s.drop BDStok.length).dropWhile isPySpace)
         else none) with
  | some r => r
  | none => (after s).getD s

/-- The noise-word list `parole_da_rimuovere`. -/
def parole_da_rimuovere : List (List Char) :=
  ["SNC".toList, "SAS".toList, "SRL".toList, "SPA".toList, "DI".toList,
   "&".toList, "C".toList, "ESTINTORI".toList, "TRAPUNTIFICIO".toList,
   "ARREDAMENT".toList]

/-- `re.sub(r'\s+', ' ', nome)`: collapse each whitespace run to one space.
The flag records whether the scan is inside a whitespace run whose single
`' '` has already been emitted. -/
def collapseWsAux : Bool → List Char → List Char
  | _, [] => []
  | inRun, c :: rest =>
    if isPySpace c then
      if inRun then collapseWsAux true rest
      else ' ' :: collapseWsAux true rest
    else c :: collapseWsAux false rest

/-- `re.sub(r'\s+', ' ', nome)`. -/
def collapseWs (s : List Char) : List Char :=
  collapseWsAux false s

/-- `str.strip()` on the ASCII fragment. -/
def stripWs (s : List Char) : List Char :=
  ((s.dropWhile isPySpace).reverse.dropWhile isPySpace).reverse

/-- `normalizza_nome_cliente` on an actual string (lines 26–38). -/
def normalizzaList (descrizione : List Char) : List Char :=
  let nome := descrizione.map pyUpper
  let nome := stripPrefBVS nome
  let nome := parole_da_rimuovere.foldl (fun n w => subWord w n) nome
  let nome_pulito := stripWs (collapseWs nome)
  if nome_pulito = [] then NDtok else nome_pulito

/-- `normalizza_nome_cliente` (lines 23–38): non-strings short-circuit to
the sentinel `"N/D"`. -/
def normalizza_nome_cliente : PyVal → List Char
  | .str s => normalizzaList s
  | _ => NDtok

/-! ## `difflib.SequenceMatcher(None, a, b).ratio()`

The scorer called at line 97.  Model of CPython's `difflib` with
`isjunk=None` (so the junk set `bjunk` is empty and the two junk-extension
loops of `find_longest_match` never fire) and the default `autojunk=True`
(elements occurring more than `len(b) // 100 + 1` times are dropped from
`b2j` when `len(b) >= 200`). -/

namespace SeqM

/-- Number of occurrences of `c` in `b`. -/
def countC (b : List Char) (c : Char) : Nat :=
  (b.filter (fun d => d = c)).length

/-- The `autojunk` "popular" test of `SequenceMatcher.__chain_b`. -/
def popular (b : List Char) (c : Char) : Bool :=
  decide (200 ≤ b.length) && decide (b.length / 100 + 1 < countC b c)

/-- `b2j[c]`: the ascending positions of `c` in `b`, with popular elements
deleted. -/
def b2j (b : List Char) (c : Char) : List Nat :=
  if popular b c then []
  else (List.range b.length).filter (fun j => b.getD j ' ' = c)

/-- One inner-loop step of `find_longest_match`: process column `j` of the
current row `i`.  `prev` is the previous row's `j2len`, the accumulator
carries the row's new `j2len` (as a function) and the best block so far. -/
def cellStep (prev : Nat → Nat) (i : Nat)
    (acc : (Nat → Nat) × (Nat × Nat × Nat)) (j : Nat) :
    (Nat → Nat) × (Nat × Nat × Nat) :=
  let k := (if j = 0 then 0 else prev (j - 1)) + 1
  (fun x => if x = j then k else acc.1 x,
   if acc.2.2.2 < k then (i + 1 - k, j + 1 - k, k) else acc.2)

/-- One outer-loop step of `find_longest_match`: process row `i`.  The new
`j2len` starts empty; columns come from `b2j` restricted to `[blo, bhi)`
(the `continue`/`break` filters). -/
def rowStep (a b : List Char) (blo bhi : Nat)
    (st : (Nat → Nat) × (Nat × Nat × Nat)) (i : Nat) :
    (Nat → Nat) × (Nat × Nat × Nat) :=
  let js := (b2j b (a.getD i ' ')).filter (fun j => decide (blo ≤ j) && decide (j < bhi))
  js.foldl (cellStep st.1 i) ((fun _ => 0), st.2)

/-- The dynamic-programming loop of `find_longest_match` (before the
extension loops): returns `(besti, bestj, bestsize)`. -/
def mainLoop (a b : List Char) (alo ahi blo bhi : Nat) : Nat × Nat × Nat :=
  ((List.range' alo (ahi - alo)).foldl (rowStep a b blo bhi)
    ((fun _ => 0), (alo, blo, 0))).2

/-- First extension loop: extend the best block backwards over equal
(non-junk; the junk set is empty) elements. -/
def extendBack (a b : List Char) (alo blo : Nat) :
    Nat → Nat → Nat → Nat × Nat × Nat
  | 0, bj, bs => (0, bj, bs)
  | bi + 1, bj, bs =>
    if alo < bi + 1 ∧ blo < bj ∧ a.getD bi ' ' = b.getD (bj - 1) ' ' then
      extendBack a b alo blo bi (bj - 1) (bs + 1)
    else (bi + 1, bj, bs)

/-- Second extension loop: extend the best block forwards over equal
elements; `fuel` bounds the number of steps (`ahi` suffices). -/
def extendFwd (a b : List Char) (ahi bhi bi bj : Nat) : Nat → Nat → Nat
  | 0, bs => bs
  | fuel + 1, bs =>
    if bi + bs < ahi ∧ bj + bs < bhi ∧ a.getD (bi + bs) ' ' = b.getD (bj + bs) ' ' then
      extendFwd a b ahi bhi bi bj fuel (bs + 1)
    else bs

/-- `find_longest_match(alo, ahi, blo, bhi)`.  The two final junk-extension
loops of CPython are omitted: with `isjunk=None` the junk set is empty and
their guards are always false. -/
def findLongestMatch (a b : List Char) (alo ahi blo bhi : Nat) : Nat × Nat × Nat :=
  let m := mainLoop a b alo ahi blo bhi
  let m2 := extendBack a b alo blo m.1 m.2.1 m.2.2
  (m2.1, m2.2.1, extendFwd a b ahi bhi m2.1 m2.2.1 ahi m2.2.2)

/-- Total size of the matching blocks found by `get_matching_blocks`'s
queue recursion on a region (the only quantity `ratio` needs).  `fuel`
bounds the recursion depth; `(ahi - alo) + (bhi - blo)` always suffices
because each recursive region is strictly smaller. -/
def matchTotalF (a b : List Char) : Nat → Nat → Nat → Nat → Nat → Nat
  | 0, _, _, _, _ => 0
  | fuel + 1, alo, ahi, blo, bhi =>
    let m := findLongestMatch a b alo ahi blo bhi
    let bi := m.1
    let bj := m.2.1
    let bs := m.2.2
    if bs = 0 then 0
    else
      bs +
        (if alo < bi ∧ blo < bj then matchTotalF a b fuel alo bi blo bj else 0) +
        (if bi + bs < ahi ∧ bj + bs < bhi then matchTotalF a b fuel (bi + bs) ahi (bj + bs) bhi
         else 0)

/-- Total matched size over the whole strings. -/
def matchTotal (a b : List Char) : Nat :=
  matchTotalF a b (a.length + b.length) 0 a.length 0 b.length

/-- `SequenceMatcher.ratio()`: `2.0 * M / T`, or `1.0` when both sequences
are empty (`_calculate_ratio`). -/
def ratio (a b : List Char) : ℚ :=
  if a.length + b.length = 0 then 1
  else 2 * (matchTotal a b : ℚ) / ((a.length : ℚ) + (b.length : ℚ))

/-- Region bounds satisfied by the best block of `find_longest_match` on
the region `[alo, ahi) × [blo, bhi)`. -/
def BestOK (alo ahi blo bhi : Nat) (t : Nat × Nat × Nat) : Prop :=
  alo ≤ t.1 ∧ blo ≤ t.2.1 ∧
  (t.2.2 = 0 → t.1 = alo ∧ t.2.1 = blo) ∧
  (t.2.2 ≠ 0 → t.1 + t.2.2 ≤ ahi ∧ t.2.1 + t.2.2 ≤ bhi)

/-- Bounds satisfied by a `j2len` row function: every value is at most
`bound`, and a non-zero value sits at a column inside `[blo, bhi)` and is
at most the column's distance into the region plus one. -/
def JOK (blo bhi bound : Nat) (f : Nat → Nat) : Prop :=
  ∀ j, f j ≤ bound ∧ (f j ≠ 0 → blo ≤ j ∧ j < bhi ∧ f j ≤ j + 1 - blo)

/-- A visited cell of the dynamic program when `a` is compared with itself
over its full square region: both indices in range, equal characters
(trivially true on the diagonal) and a non-popular column character. -/
def vis (a : List Char) (i j : Nat) : Prop :=
  i < a.length ∧ j < a.length ∧ a.getD i ' ' = a.getD j ' ' ∧
    popular a (a.getD j ' ') = false

instance (a : List Char) (i j : Nat) : Decidable (vis a i j) := by
  unfold vis; infer_instance

/-- Closed form of the `j2len` dynamic program of `mainLoop` on the full
square region of `a` against itself: the length of the matching run ending
at cell `(i, j)`. -/
def K (a : List Char) (i j : Nat) : Nat :=
  if vis a i j then
    (if h : 0 < i ∧ 0 < j then K a (i - 1) (j - 1) else 0) + 1
  else 0
  termination_by i
  decreasing_by omega

end SeqM

/-! ## `riconcilia_transazioni` — the reconciliation engine (lines 49–148) -/

/-- An input row of the frame handed to `riconcilia_transazioni`, restricted
to the columns the engine reads.  `Dare_Num` and `Avere_Num` are the amount
columns already produced by `pulisci_valuta` (lines 177–178); the other
frame columns are carried by the rows but never read by the engine. -/
structure Entry where
  Data_Reg : PyVal
  Descrizione : PyVal
  Dare_Num : ℚ
  Avere_Num : ℚ
  deriving DecidableEq, Repr

/-- A working row of `df_lavoro` (lines 55–60): the entry plus its
positional index `ID_Originale`, the (unused) column `Importo_Unico`, and
the normalized token `Nome_Norm`. -/
structure Lavoro where
  ID_Originale : Nat
  Data_Reg : PyVal
  Descrizione : PyVal
  Dare_Num : ℚ
  Avere_Num : ℚ
  Importo_Unico : ℚ
  Nome_Norm : List Char
  deriving DecidableEq, Repr

/-- Build one working row. -/
def mkLavoro (i : Nat) (e : Entry) : Lavoro :=
  { ID_Originale := i, Data_Reg := e.Data_Reg, Descrizione := e.Descrizione,
    Dare_Num := e.Dare_Num, Avere_Num := e.Avere_Num,
    Importo_Unico := e.Dare_Num + e.Avere_Num,
    Nome_Norm := normalizza_nome_cliente e.Descrizione }

/-- `df_lavoro` (lines 55–60). -/
def dfLavoro (df : List Entry) : List Lavoro :=
  df.enum.map (fun p => mkLavoro p.1 p.2)

/-- Stable ascending insertion by a rational key (the embedding of
`sort_values`; see the header note on tie order). -/
def insertAsc (key : Lavoro → ℚ) (x : Lavoro) : List Lavoro → List Lavoro
  | [] => [x]
  | y :: ys => if key x ≤ key y then x :: y :: ys else y :: insertAsc key x ys

/-- Insertion sort by a rational key. -/
def sortAsc (key : Lavoro → ℚ) : List Lavoro → List Lavoro
  | [] => []
  | x :: xs => insertAsc key x (sortAsc key xs)

/-- The credit pool (line 63): rows with `Avere_Num > 0`, ascending by
`Avere_Num`. -/
def creditiOf (df : List Entry) : List Lavoro :=
  sortAsc (fun r => r.Avere_Num) ((dfLavoro df).filter (fun r => 0 < r.Avere_Num))

/-- The debit pool (line 64): rows with `Dare_Num > 0`, ascending by
`Dare_Num`. -/
def debitiOf (df : List Entry) : List Lavoro :=
  sortAsc (fun r => r.Dare_Num) ((dfLavoro df).filter (fun r => 0 < r.Dare_Num))

/-- Lines 94–97: the similarity of two identity tokens, forced to `0.0`
when either one is the sentinel `"N/D"`. -/
def similarita (nome_debito nome_credito : List Char) : ℚ :=
  if nome_debito = NDtok ∨ nome_credito = NDtok then 0
  else SeqM.ratio nome_debito nome_credito

/-- The best-candidate accumulator of the inner loop (lines 74–76). -/
structure BestSt where
  miglior_match : Option Lavoro
  miglior_similarita : ℚ
  miglior_diff : ℚ
  deriving DecidableEq, Repr

/-- One credit row of the inner loop (lines 80–116).  `id_usati_credito`
is the consumed-credit set at the start of this debit's scan (the set only
changes after the scan, line 132).  The initial `miglior_diff =
float('inf')` of line 76 is modelled by `0`: that field can only be read in
the `similarita == miglior_similarita` branch, and while no candidate has
been accepted `miglior_similarita = -1.0` whereas every similarity is
`≥ 0`, so the branch is unreachable and the initial value is never read. -/
def scanStep (tolleranza soglia_similarita : ℚ) (id_usati_credito : List Nat)
    (nome_debito : List Char) (dare : ℚ) (st : BestSt) (credito : Lavoro) :
    BestSt :=
  if credito.ID_Originale ∈ id_usati_credito then st
  else
    let diff := |dare - credito.Avere_Num|
    if diff ≤ tolleranza then
      let sim := similarita nome_debito credito.Nome_Norm
      if soglia_similarita ≤ sim then
        if st.miglior_similarita < sim then
          { miglior_match := some credito, miglior_similarita := sim,
            miglior_diff := diff }
        else if sim = st.miglior_similarita then
          if diff < st.miglior_diff then
            { st with miglior_match := some credito, miglior_diff := diff }
          else st
        else st
      else st
    else st

/-- The whole inner loop for one debit row. -/
def scanCrediti (tolleranza soglia_similarita : ℚ) (cs : List Lavoro)
    (id_usati_credito : List Nat) (debito : Lavoro) : BestSt :=
  cs.foldl
    (scanStep tolleranza soglia_similarita id_usati_credito debito.Nome_Norm
      debito.Dare_Num)
    { miglior_match := none, miglior_similarita := -1, miglior_diff := 0 }

/-- One reconciled pair (lines 121–130). -/
structure Pair where
  Data_Dare : PyVal
  Descrizione_Dare : PyVal
  Importo_Dare : ℚ
  Data_Avere : PyVal
  Descrizione_Avere : PyVal
  Importo_Avere : ℚ
  Differenza : ℚ
  Similarita_Desc : ℚ
  deriving DecidableEq, Repr

/-- The mutable state of the outer loop (lines 66–68). -/
structure RState where
  riconciliati : List Pair
  id_usati_debito : List Nat
  id_usati_credito : List Nat
  deriving DecidableEq, Repr

/-- One debit row of the outer loop (lines 70–132). -/
def processDebito (tolleranza soglia_similarita : ℚ) (cs : List Lavoro)
    (st : RState) (debito : Lavoro) : RState :=
  if debito.ID_Originale ∈ st.id_usati_debito then st
  else
    let best := scanCrediti tolleranza soglia_similarita cs st.id_usati_credito debito
    match best.miglior_match with
    | some m =>
      { riconciliati := st.riconciliati ++
          [{ Data_Dare := debito.Data_Reg,
             Descrizione_Dare := debito.Descrizione,
             Importo_Dare := debito.Dare_Num,
             Data_Avere := m.Data_Reg,
             Descrizione_Avere := m.Descrizione,
             Importo_Avere := m.Avere_Num,
             Differenza := best.miglior_diff,
             Similarita_Desc := best.miglior_similarita }],
        id_usati_debito := debito.ID_Originale :: st.id_usati_debito,
        id_usati_credito := m.ID_Originale :: st.id_usati_credito }
    | none => st

/-- The full matching pass: fold the outer loop over the debit pool. -/
def riconciliaState (df : List Entry) (tolleranza soglia_similarita : ℚ) :
    RState :=
  (debitiOf df).foldl (processDebito tolleranza soglia_similarita (creditiOf df))
    { riconciliati := [], id_usati_debito := [], id_usati_credito := [] }

/-- `riconcilia_transazioni` (lines 49–148): the reconciled pairs and the
residue `df[~df.index.isin(id_riconciliati)]` in original order. -/
def riconcilia_transazioni (df : List Entry) (tolleranza soglia_similarita : ℚ) :
    List Pair × List Entry :=
  let st := riconciliaState df tolleranza soglia_similarita
  let id_riconciliati := st.id_usati_debito ++ st.id_usati_credito
  (st.riconciliati,
   (df.enum.filter (fun p => p.1 ∉ id_riconciliati)).map (fun p => p.2))

/-- A credit row passes the consumed/tolerance/threshold checks of the
inner loop (lines 81–100) for the given debit context. -/
def isCandidate (tolleranza soglia_similarita : ℚ) (id_usati_credito : List Nat)
    (nome_debito : List Char) (dare : ℚ) (c : Lavoro) : Prop :=
  c.ID_Originale ∉ id_usati_credito ∧ |dare - c.Avere_Num| ≤ tolleranza ∧
    soglia_similarita ≤ similarita nome_debito c.Nome_Norm

instance (tolleranza soglia_similarita : ℚ) (id_usati_credito : List Nat)
    (nome_debito : List Char) (dare : ℚ) (c : Lavoro) :
    Decidable (isCandidate tolleranza soglia_similarita id_usati_credito
      nome_debito dare c) := by
  unfold isCandidate; infer_instance

/-- `x` is no better than `m` in the two-level candidate ordering of lines
102–116: lower similarity, or equal similarity and no smaller amount
difference. -/
def lexNoBetter (nome_debito : List Char) (dare : ℚ) (x m : Lavoro) : Prop :=
  similarita nome_debito x.Nome_Norm < similarita nome_debito m.Nome_Norm ∨
    (similarita nome_debito x.Nome_Norm = similarita nome_debito m.Nome_Norm ∧
      |dare - m.Avere_Num| ≤ |dare - x.Avere_Num|)

/-- `x` is strictly worse than `m`: lower similarity, or equal similarity
and strictly larger amount difference. -/
def lexWorse (nome_debito : List Char) (dare : ℚ) (x m : Lavoro) : Prop :=
  similarita nome_debito x.Nome_Norm < similarita nome_debito m.Nome_Norm ∨
    (similarita nome_debito x.Nome_Norm = similarita nome_debito m.Nome_Norm ∧
      |dare - m.Avere_Num| < |dare - x.Avere_Num|)

instance (nome_debito : List Char) (dare : ℚ) (x m : Lavoro) :
    Decidable (lexNoBetter nome_debito dare x m) := by
  unfold lexNoBetter; infer_instance

instance (nome_debito : List Char) (dare : ℚ) (x m : Lavoro) :
    Decidable (lexWorse nome_debito dare x m) := by
  unfold lexWorse; infer_instance

/-- Invariant of the inner candidate scan after processing the rows of
`seen`: either no candidate has been seen and the accumulator still holds
its initial values, or the accumulator holds the first candidate of `seen`
that is optimal in the two-level ordering. -/
def ScanInv (tolleranza soglia_similarita : ℚ) (id_usati_credito : List Nat)
    (nome_debito : List Char) (dare : ℚ) (seen : List Lavoro) (st : BestSt) :
    Prop :=
  (st.miglior_match = none ∧ st.miglior_similarita = -1 ∧ st.miglior_diff = 0 ∧
    ∀ c ∈ seen, ¬ isCandidate tolleranza soglia_similarita id_usati_credito
      nome_debito dare c) ∨
  (∃ m pre post, st.miglior_match = some m ∧ seen = pre ++ m :: post ∧
    isCandidate tolleranza soglia_similarita id_usati_credito nome_debito dare m ∧
    st.miglior_similarita = similarita nome_debito m.Nome_Norm ∧
    st.miglior_diff = |dare - m.Avere_Num| ∧
    (∀ c ∈ seen, isCandidate tolleranza soglia_similarita id_usati_credito
      nome_debito dare c → lexNoBetter nome_debito dare c m) ∧
    (∀ c ∈ pre, isCandidate tolleranza soglia_similarita id_usati_credito
      nome_debito dare c → lexWorse nome_debito dare c m))

/-- Soundness of one emitted pair: its similarity clears the threshold, is
the similarity of the two recomputed identity tokens, and its recorded
difference is the amount difference, within tolerance. -/
def PairSound (tolleranza soglia_similarita : ℚ) (p : Pair) : Prop :=
  soglia_similarita ≤ p.Similarita_Desc ∧
  p.Similarita_Desc = similarita (normalizza_nome_cliente p.Descrizione_Dare)
      (normalizza_nome_cliente p.Descrizione_Avere) ∧
  p.Differenza = |p.Importo_Dare - p.Importo_Avere| ∧
  |p.Importo_Dare - p.Importo_Avere| ≤ tolleranza

/-- A whitespace-collapsed string: every whitespace character is the plain
space, and no two adjacent characters are both whitespace. -/
def Collapsed (s : List Char) : Prop :=
  (∀ c ∈ s, isPySpace c = true → c = ' ') ∧
  s.Chain' (fun x y => ¬(isPySpace x = true ∧ isPySpace y = true))

/-- Invariant of the outer loop tying the emitted pairs to the two
consumed-identifier sets. -/
def UsedInv (df : List Entry) (st : RState) : Prop :=
  st.id_usati_debito.Nodup ∧ st.id_usati_credito.Nodup ∧
  (∀ i ∈ st.id_usati_debito, ∃ l ∈ debitiOf df, l.ID_Originale = i) ∧
  (∀ i ∈ st.id_usati_credito, ∃ l ∈ creditiOf df, l.ID_Originale = i) ∧
  st.riconciliati.length = st.id_usati_debito.length ∧
  st.id_usati_debito.length = st.id_usati_credito.length

/-- The identifiers of the residue rows: the original positions that are in
neither consumed set (line 146). -/
def residuoIds (df : List Entry) (tolleranza soglia_similarita : ℚ) : List Nat :=
  (df.enum.filter (fun p =>
    p.1 ∉ (riconciliaState df tolleranza soglia_similarita).id_usati_debito ++
      (riconciliaState df tolleranza soglia_similarita).id_usati_credito)).map
    Prod.fst

/-! ## Basic facts about the scorer -/

/-- The ratio is non-negative. -/
theorem SeqM.ratio_nonneg (a b : List Char) : 0 ≤ SeqM.ratio a b := by
  unfold SeqM.ratio
  split
  · norm_num
  · positivity

/-- The similarity used by the engine is non-negative (it is either the
forced `0.0` or a ratio). -/
theorem similarita_nonneg (x y : List Char) : 0 ≤ similarita x y := by
  unfold similarita
  split
  · exact le_refl 0
  · exact SeqM.ratio_nonneg x y

/-! ## Bounds of the matcher -/

/-- One cell step keeps the row bounds and the best-block bounds. -/
theorem SeqM.cellStep_ok {alo ahi blo bhi : Nat} {prev : Nat → Nat} {i : Nat}
    (hia : alo ≤ i) (hib : i < ahi)
    (hprev : SeqM.JOK blo bhi (i - alo) prev)
    {acc : (Nat → Nat) × (Nat × Nat × Nat)} {j : Nat}
    (hjb : blo ≤ j) (hjt : j < bhi)
    (h1 : SeqM.JOK blo bhi (i + 1 - alo) acc.1)
    (h2 : SeqM.BestOK alo ahi blo bhi acc.2) :
    SeqM.JOK blo bhi (i + 1 - alo) (SeqM.cellStep prev i acc j).1 ∧
    SeqM.BestOK alo ahi blo bhi (SeqM.cellStep prev i acc j).2 := by
  have hk1 : (if j = 0 then 0 else prev (j - 1)) + 1 ≤ i + 1 - alo := by
    split
    · omega
    · have := (hprev (j - 1)).1
      omega
  have hk2 : (if j = 0 then 0 else prev (j - 1)) + 1 ≤ j + 1 - blo := by
    split
    · omega
    · rcases Nat.eq_zero_or_pos (prev (j - 1)) with hz | hp
      · omega
      · have := ((hprev (j - 1)).2 (by omega)).2.2
        next hj0 => omega
  constructor
  · intro x
    unfold SeqM.cellStep
    simp only
    by_cases hxj : x = j
    · subst hxj
      rw [if_pos rfl]
      exact ⟨hk1, fun _ => ⟨hjb, hjt, hk2⟩⟩
    · rw [if_neg hxj]
      exact h1 x
  · unfold SeqM.cellStep
    simp only
    by_cases hlt : acc.2.2.2 < (if j = 0 then 0 else prev (j - 1)) + 1
    · rw [if_pos hlt]
      unfold SeqM.BestOK
      simp only
      refine ⟨by omega, by omega, fun h0 => absurd h0 (by omega),
        fun _ => ⟨by omega, by omega⟩⟩
    · rw [if_neg hlt]
      exact h2

/-- The cell fold keeps the row bounds and the best-block bounds. -/
theorem SeqM.cellFold_ok {alo ahi blo bhi : Nat} {prev : Nat → Nat} {i : Nat}
    (hia : alo ≤ i) (hib : i < ahi)
    (hprev : SeqM.JOK blo bhi (i - alo) prev) :
    ∀ (js : List Nat) (acc : (Nat → Nat) × (Nat × Nat × Nat)),
      (∀ j ∈ js, blo ≤ j ∧ j < bhi) →
      SeqM.JOK blo bhi (i + 1 - alo) acc.1 →
      SeqM.BestOK alo ahi blo bhi acc.2 →
      SeqM.JOK blo bhi (i + 1 - alo) (js.foldl (SeqM.cellStep prev i) acc).1 ∧
      SeqM.BestOK alo ahi blo bhi (js.foldl (SeqM.cellStep prev i) acc).2
  | [], _, _, h1, h2 => ⟨h1, h2⟩
  | j :: js, acc, hjs, h1, h2 =>
    have hj := hjs j (List.mem_cons_self j js)
    have hstep := SeqM.cellStep_ok hia hib hprev hj.1 hj.2 h1 h2
    SeqM.cellFold_ok hia hib hprev js _
      (fun x hx => hjs x (List.mem_cons_of_mem j hx)) hstep.1 hstep.2

/-- The row fold keeps the best-block bounds. -/
theorem SeqM.rowFoldRange_ok (a b : List Char) {alo ahi blo bhi : Nat} :
    ∀ (len r : Nat) (st : (Nat → Nat) × (Nat × Nat × Nat)), alo ≤ r →
      r + len = ahi →
      SeqM.JOK blo bhi (r - alo) st.1 →
      SeqM.BestOK alo ahi blo bhi st.2 →
      SeqM.BestOK alo ahi blo bhi
        ((List.range' r len).foldl (SeqM.rowStep a b blo bhi) st).2
  | 0, _, _, _, _, _, h2 => h2
  | len + 1, r, st, hr, hlen, h1, h2 => by
    rw [List.range'_succ]
    have hjs : ∀ j ∈ (SeqM.b2j b (a.getD r ' ')).filter
        (fun j => decide (blo ≤ j) && decide (j < bhi)), blo ≤ j ∧ j < bhi := by
      intro j hj
      have := (List.mem_filter.mp hj).2
      simp only [Bool.and_eq_true, decide_eq_true_eq] at this
      exact this
    have h0 : SeqM.JOK blo bhi (r + 1 - alo) (fun _ => 0) :=
      fun _ => ⟨Nat.zero_le _, fun h => absurd rfl h⟩
    have hcell := @SeqM.cellFold_ok alo ahi blo bhi st.1 r hr (by omega) h1
      ((SeqM.b2j b (a.getD r ' ')).filter
        (fun j => decide (blo ≤ j) && decide (j < bhi)))
      ((fun _ => 0), st.2) hjs h0 h2
    exact SeqM.rowFoldRange_ok a b len (r + 1)
      (SeqM.rowStep a b blo bhi st r) (by omega) (by omega) hcell.1 hcell.2

/-- The best block of `mainLoop` respects the region bounds. -/
theorem SeqM.mainLoop_bounds (a b : List Char) (alo ahi blo bhi : Nat) :
    SeqM.BestOK alo ahi blo bhi (SeqM.mainLoop a b alo ahi blo bhi) := by
  have hinit : SeqM.BestOK alo ahi blo bhi (alo, blo, 0) :=
    ⟨le_rfl, le_rfl, fun _ => ⟨rfl, rfl⟩, fun h0 => absurd rfl h0⟩
  have h0 : SeqM.JOK blo bhi (alo - alo) (fun _ => 0) :=
    fun _ => ⟨Nat.zero_le _, fun h => absurd rfl h⟩
  unfold SeqM.mainLoop
  by_cases h : alo ≤ ahi
  · exact SeqM.rowFoldRange_ok a b (ahi - alo) alo _ le_rfl (by omega) h0 hinit
  · have hz : ahi - alo = 0 := by omega
    rw [hz]
    exact hinit

/-- The backward extension stays in bounds and only moves the block. -/
theorem SeqM.extendBack_ok (a b : List Char) (alo blo : Nat) :
    ∀ (bi bj bs : Nat), alo ≤ bi → blo ≤ bj →
      alo ≤ (SeqM.extendBack a b alo blo bi bj bs).1 ∧
      blo ≤ (SeqM.extendBack a b alo blo bi bj bs).2.1 ∧
      (SeqM.extendBack a b alo blo bi bj bs).1 +
        (SeqM.extendBack a b alo blo bi bj bs).2.2 = bi + bs ∧
      (SeqM.extendBack a b alo blo bi bj bs).2.1 +
        (SeqM.extendBack a b alo blo bi bj bs).2.2 = bj + bs ∧
      bs ≤ (SeqM.extendBack a b alo blo bi bj bs).2.2
  | 0, bj, bs, ha, hb => by
    unfold SeqM.extendBack
    exact ⟨ha, hb, rfl, rfl, le_rfl⟩
  | bi + 1, bj, bs, ha, hb => by
    unfold SeqM.extendBack
    split
    · next hg =>
      have hrec := SeqM.extendBack_ok a b alo blo bi (bj - 1) (bs + 1)
        (by omega) (by omega)
      refine ⟨hrec.1, hrec.2.1, by omega, by omega, by omega⟩
    · exact ⟨ha, hb, rfl, rfl, le_rfl⟩

/-- The forward extension only grows the size, staying in bounds whenever
it actually grows. -/
theorem SeqM.extendFwd_ok (a b : List Char) (ahi bhi bi bj : Nat) :
    ∀ (fuel bs : Nat),
      bs ≤ SeqM.extendFwd a b ahi bhi bi bj fuel bs ∧
      (SeqM.extendFwd a b ahi bhi bi bj fuel bs ≠ bs →
        bi + SeqM.extendFwd a b ahi bhi bi bj fuel bs ≤ ahi ∧
        bj + SeqM.extendFwd a b ahi bhi bi bj fuel bs ≤ bhi)
  | 0, bs => ⟨le_rfl, fun h => absurd rfl h⟩
  | fuel + 1, bs => by
    unfold SeqM.extendFwd
    split
    · next hg =>
      have hrec := SeqM.extendFwd_ok a b ahi bhi bi bj fuel (bs + 1)
      refine ⟨by omega, fun _ => ?_⟩
      by_cases he : SeqM.extendFwd a b ahi bhi bi bj fuel (bs + 1) = bs + 1
      · rw [he]; omega
      · exact hrec.2 he
    · exact ⟨le_rfl, fun h => absurd rfl h⟩

/-- The extension pipeline after the main loop keeps the block inside the
region. -/
theorem SeqM.extendPipe_ok (a b : List Char)
    {alo ahi blo bhi bi bj bs ei ej es s2 : Nat}
    (hok : SeqM.BestOK alo ahi blo bhi (bi, bj, bs))
    (he : SeqM.extendBack a b alo blo bi bj bs = (ei, ej, es))
    (hs : SeqM.extendFwd a b ahi bhi ei ej ahi es = s2)
    (hne : s2 ≠ 0) :
    alo ≤ ei ∧ blo ≤ ej ∧ ei + s2 ≤ ahi ∧ ej + s2 ≤ bhi := by
  simp only [SeqM.BestOK] at hok
  obtain ⟨m1, m2, m3, m4⟩ := hok
  have hb := SeqM.extendBack_ok a b alo blo bi bj bs m1 m2
  rw [he] at hb
  simp only at hb
  obtain ⟨b1, b2, b3, b4, b5⟩ := hb
  have hf := SeqM.extendFwd_ok a b ahi bhi ei ej ahi es
  rw [hs] at hf
  obtain ⟨f1, f2⟩ := hf
  refine ⟨b1, b2, ?_, ?_⟩ <;> {
    by_cases heq : s2 = es
    · subst heq
      rcases Nat.eq_zero_or_pos bs with hz | hp
      · have := m3 hz
        omega
      · have := m4 (by omega)
        omega
    · have := f2 heq
      omega
  }

/-- The block returned by `find_longest_match` lies inside the region. -/
theorem SeqM.findLongestMatch_ok (a b : List Char) (alo ahi blo bhi : Nat)
    (hab : alo ≤ ahi) (hbb : blo ≤ bhi)
    (hne : (SeqM.findLongestMatch a b alo ahi blo bhi).2.2 ≠ 0) :
    alo ≤ (SeqM.findLongestMatch a b alo ahi blo bhi).1 ∧
    blo ≤ (SeqM.findLongestMatch a b alo ahi blo bhi).2.1 ∧
    (SeqM.findLongestMatch a b alo ahi blo bhi).1 +
      (SeqM.findLongestMatch a b alo ahi blo bhi).2.2 ≤ ahi ∧
    (SeqM.findLongestMatch a b alo ahi blo bhi).2.1 +
      (SeqM.findLongestMatch a b alo ahi blo bhi).2.2 ≤ bhi := by
  have hok : SeqM.BestOK alo ahi blo bhi
      ((SeqM.mainLoop a b alo ahi blo bhi).1,
       (SeqM.mainLoop a b alo ahi blo bhi).2.1,
       (SeqM.mainLoop a b alo ahi blo bhi).2.2) :=
    SeqM.mainLoop_bounds a b alo ahi blo bhi
  exact SeqM.extendPipe_ok a b hok rfl rfl hne

/-- The total matched size never exceeds either region size. -/
theorem SeqM.matchTotalF_le (a b : List Char) :
    ∀ (fuel alo ahi blo bhi : Nat), alo ≤ ahi → blo ≤ bhi →
      SeqM.matchTotalF a b fuel alo ahi blo bhi ≤
        min (ahi - alo) (bhi - blo)
  | 0, _, _, _, _, _, _ => Nat.zero_le _
  | fuel + 1, alo, ahi, blo, bhi, hab, hbb => by
    unfold SeqM.matchTotalF
    simp only
    by_cases hz : (SeqM.findLongestMatch a b alo ahi blo bhi).2.2 = 0
    · rw [if_pos hz]
      exact Nat.zero_le _
    · rw [if_neg hz]
      obtain ⟨f1, f2, f3, f4⟩ :=
        SeqM.findLongestMatch_ok a b alo ahi blo bhi hab hbb hz
      have hleft : (if alo < (SeqM.findLongestMatch a b alo ahi blo bhi).1 ∧
          blo < (SeqM.findLongestMatch a b alo ahi blo bhi).2.1 then
            SeqM.matchTotalF a b fuel alo
              (SeqM.findLongestMatch a b alo ahi blo bhi).1 blo
              (SeqM.findLongestMatch a b alo ahi blo bhi).2.1
          else 0) ≤
          min ((SeqM.findLongestMatch a b alo ahi blo bhi).1 - alo)
            ((SeqM.findLongestMatch a b alo ahi blo bhi).2.1 - blo) := by
        split
        · exact SeqM.matchTotalF_le a b fuel _ _ _ _ f1 f2
        · exact Nat.zero_le _
      have hright : (if (SeqM.findLongestMatch a b alo ahi blo bhi).1 +
            (SeqM.findLongestMatch a b alo ahi blo bhi).2.2 < ahi ∧
            (SeqM.findLongestMatch a b alo ahi blo bhi).2.1 +
              (SeqM.findLongestMatch a b alo ahi blo bhi).2.2 < bhi then
            SeqM.matchTotalF a b fuel
              ((SeqM.findLongestMatch a b alo ahi blo bhi).1 +
                (SeqM.findLongestMatch a b alo ahi blo bhi).2.2) ahi
              ((SeqM.findLongestMatch a b alo ahi blo bhi).2.1 +
                (SeqM.findLongestMatch a b alo ahi blo bhi).2.2) bhi
          else 0) ≤
          min (ahi - ((SeqM.findLongestMatch a b alo ahi blo bhi).1 +
              (SeqM.findLongestMatch a b alo ahi blo bhi).2.2))
            (bhi - ((SeqM.findLongestMatch a b alo ahi blo bhi).2.1 +
              (SeqM.findLongestMatch a b alo ahi blo bhi).2.2)) := by
        split
        · exact SeqM.matchTotalF_le a b fuel _ _ _ _ f3 f4
        · exact Nat.zero_le _
      omega

/-- The ratio never exceeds `1`. -/
theorem SeqM.ratio_le_one (a b : List Char) : SeqM.ratio a b ≤ 1 := by
  unfold SeqM.ratio
  split
  · exact le_rfl
  · next hne =>
    have hM : SeqM.matchTotal a b ≤ min a.length b.length := by
      have := SeqM.matchTotalF_le a b (a.length + b.length) 0 a.length 0
        b.length (Nat.zero_le _) (Nat.zero_le _)
      simpa using this
    have h2M : 2 * SeqM.matchTotal a b ≤ a.length + b.length := by omega
    have hpos : (0 : ℚ) < (a.length : ℚ) + (b.length : ℚ) := by
      have : 0 < a.length + b.length := Nat.pos_of_ne_zero hne
      push_cast
      exact_mod_cast this
    rw [div_le_one hpos]
    push_cast
    exact_mod_cast h2M

/-! ## The matcher on identical sequences -/

/-- A visited cell has a visited column-diagonal cell. -/
theorem SeqM.vis_diag_left {a : List Char} {i j : Nat} (h : SeqM.vis a i j) :
    SeqM.vis a j j :=
  ⟨h.2.1, h.2.1, rfl, h.2.2.2⟩

/-- A visited cell has a visited row-diagonal cell. -/
theorem SeqM.vis_diag_right {a : List Char} {i j : Nat} (h : SeqM.vis a i j) :
    SeqM.vis a i i :=
  ⟨h.1, h.1, rfl, by rw [h.2.2.1]; exact h.2.2.2⟩

/-- Unfolding `K` at a visited cell. -/
theorem SeqM.K_vis {a : List Char} {i j : Nat} (h : SeqM.vis a i j) :
    SeqM.K a i j =
      (if 0 < i ∧ 0 < j then SeqM.K a (i - 1) (j - 1) else 0) + 1 := by
  rw [SeqM.K, if_pos h, dite_eq_ite]

/-- Unfolding `K` at an unvisited cell. -/
theorem SeqM.K_not_vis {a : List Char} {i j : Nat} (h : ¬ SeqM.vis a i j) :
    SeqM.K a i j = 0 := by
  rw [SeqM.K, if_neg h]

/-- A run ending below the diagonal is no longer than the diagonal run
ending at its column. -/
theorem SeqM.K_le_left (a : List Char) :
    ∀ i j, j ≤ i → SeqM.K a i j ≤ SeqM.K a j j := by
  intro i
  induction i using Nat.strong_induction_on with
  | _ i ih =>
    intro j hji
    by_cases hv : SeqM.vis a i j
    · have hvj := SeqM.vis_diag_left hv
      rw [SeqM.K_vis hv, SeqM.K_vis hvj]
      by_cases hj : 0 < j
      · have hi : 0 < i := lt_of_lt_of_le hj hji
        rw [if_pos ⟨hi, hj⟩, if_pos ⟨hj, hj⟩]
        have hlt : i - 1 < i := by omega
        exact Nat.succ_le_succ (ih (i - 1) hlt (j - 1) (by omega))
      · rw [if_neg (by omega), if_neg (by omega)]
    · rw [SeqM.K_not_vis hv]
      exact Nat.zero_le _

/-- A run ending above the diagonal is no longer than the diagonal run
ending at its row. -/
theorem SeqM.K_le_right (a : List Char) :
    ∀ i j, i ≤ j → SeqM.K a i j ≤ SeqM.K a i i := by
  intro i
  induction i using Nat.strong_induction_on with
  | _ i ih =>
    intro j hij
    by_cases hv : SeqM.vis a i j
    · have hvi := SeqM.vis_diag_right hv
      rw [SeqM.K_vis hv, SeqM.K_vis hvi]
      by_cases hi : 0 < i
      · have hj : 0 < j := lt_of_lt_of_le hi hij
        rw [if_pos ⟨hi, hj⟩, if_pos ⟨hi, hi⟩]
        have hlt : i - 1 < i := by omega
        exact Nat.succ_le_succ (ih (i - 1) hlt (j - 1) (by omega))
      · rw [if_neg (by omega), if_neg (by omega)]
    · rw [SeqM.K_not_vis hv]
      exact Nat.zero_le _

/-- Membership in the position table equals cell visitedness (for a row in
range, comparing `a` with itself). -/
theorem SeqM.mem_b2j_vis {a : List Char} {i j : Nat} (hi : i < a.length) :
    j ∈ SeqM.b2j a (a.getD i ' ') ↔ SeqM.vis a i j := by
  unfold SeqM.b2j
  by_cases hp : SeqM.popular a (a.getD i ' ')
  · rw [if_pos hp]
    simp only [List.not_mem_nil, false_iff]
    intro hv
    have h4 := hv.2.2.2
    rw [← hv.2.2.1, hp] at h4
    cases h4
  · rw [if_neg hp]
    rw [List.mem_filter, List.mem_range]
    constructor
    · intro h
      have heq : a.getD j ' ' = a.getD i ' ' := by
        have := h.2
        simpa using this
      refine ⟨hi, h.1, heq.symm, ?_⟩
      rw [heq]
      exact Bool.not_eq_true _ ▸ hp
    · intro hv
      refine ⟨hv.2.1, ?_⟩
      simp only [decide_eq_true_eq]
      exact hv.2.2.1.symm

/-- Over the full column range the `continue`/`break` filter is the
identity. -/
theorem SeqM.js_full (a : List Char) (c : Char) :
    (SeqM.b2j a c).filter
      (fun j => decide (0 ≤ j) && decide (j < a.length)) = SeqM.b2j a c := by
  apply List.filter_eq_self.mpr
  intro j hj
  have hjn : j < a.length := by
    unfold SeqM.b2j at hj
    split at hj
    · cases hj
    · exact List.mem_range.mp (List.mem_filter.mp hj).1
  simp [hjn]

/-- The position table is strictly increasing. -/
theorem SeqM.b2j_sorted (a : List Char) (c : Char) :
    (SeqM.b2j a c).Pairwise (· < ·) := by
  unfold SeqM.b2j
  split
  · exact List.Pairwise.nil
  · exact (List.pairwise_lt_range _).filter _

/-- The inner-loop `k` computed at a visited cell is the closed form `K`. -/
theorem SeqM.cell_k_eq {a : List Char} {i j : Nat} {prev : Nat → Nat}
    (hprev : ∀ x, prev x = if i = 0 then 0 else SeqM.K a (i - 1) x)
    (hv : SeqM.vis a i j) :
    (if j = 0 then 0 else prev (j - 1)) + 1 = SeqM.K a i j := by
  rw [SeqM.K_vis hv]
  congr 1
  by_cases hj : j = 0
  · rw [if_pos hj, if_neg (by omega)]
  · rw [if_neg hj, hprev (j - 1)]
    by_cases hi : i = 0
    · rw [if_pos hi, if_neg (by omega)]
    · rw [if_neg hi, if_pos ⟨by omega, by omega⟩]

/-- The cell fold on the full square region of `a` against itself keeps
the best block on the diagonal, dominates every settled diagonal run, and
computes the `K` row. -/
theorem SeqM.cellFoldDiag (a : List Char) (i : Nat) (hi : i < a.length)
    {prev : Nat → Nat}
    (hprev : ∀ x, prev x = if i = 0 then 0 else SeqM.K a (i - 1) x) :
    ∀ (rem : List Nat) (acc : (Nat → Nat) × (Nat × Nat × Nat)),
      rem.Pairwise (· < ·) →
      (∀ j ∈ rem, SeqM.vis a i j) →
      (∀ x, acc.1 x = if SeqM.vis a i x ∧ x ∉ rem then SeqM.K a i x else 0) →
      acc.2.1 = acc.2.2.1 →
      (∀ m, m < i → SeqM.K a m m ≤ acc.2.2.2) →
      (SeqM.vis a i i → i ∉ rem → SeqM.K a i i ≤ acc.2.2.2) →
      (∀ x, (rem.foldl (SeqM.cellStep prev i) acc).1 x =
        if SeqM.vis a i x then SeqM.K a i x else 0) ∧
      (rem.foldl (SeqM.cellStep prev i) acc).2.1 =
        (rem.foldl (SeqM.cellStep prev i) acc).2.2.1 ∧
      (∀ m, m < i →
        SeqM.K a m m ≤ (rem.foldl (SeqM.cellStep prev i) acc).2.2.2) ∧
      (SeqM.vis a i i →
        SeqM.K a i i ≤ (rem.foldl (SeqM.cellStep prev i) acc).2.2.2)
  | [], acc, _, _, hJ, hdiag, hdom, hii => by
    simp only [List.foldl_nil]
    refine ⟨?_, hdiag, hdom, fun hv => hii hv (by simp)⟩
    intro x
    rw [hJ x]
    by_cases hv : SeqM.vis a i x
    · rw [if_pos ⟨hv, by simp⟩, if_pos hv]
    · rw [if_neg (fun hc => hv hc.1), if_neg hv]
  | j :: rem, acc, hsort, hvis, hJ, hdiag, hdom, hii => by
    have hvj : SeqM.vis a i j := hvis j (List.mem_cons_self j rem)
    have hsort2 := List.pairwise_cons.mp hsort
    have hjrem : j ∉ rem := fun hmem =>
      absurd (hsort2.1 j hmem) (lt_irrefl j)
    have hk := SeqM.cell_k_eq hprev hvj
    rw [List.foldl_cons]
    by_cases hlt : acc.2.2.2 < (if j = 0 then 0 else prev (j - 1)) + 1
    · -- the candidate run beats the best: it must end on the diagonal
      rw [hk] at hlt
      have hij : j = i := by
        rcases lt_trichotomy j i with hji | heq | hij
        · have h1 := SeqM.K_le_left a i j (le_of_lt hji)
          have h2 := hdom j hji
          omega
        · exact heq
        · have hvii := SeqM.vis_diag_right hvj
          have hinotin : i ∉ j :: rem := by
            intro hmem
            rcases List.mem_cons.mp hmem with heq2 | hmem
            · omega
            · have := hsort2.1 i hmem
              omega
          have h2 := hii hvii hinotin
          have h1 := SeqM.K_le_right a i j (le_of_lt hij)
          omega
      subst hij
      have hstep : SeqM.cellStep prev j acc j =
          ((fun x => if x = j then SeqM.K a j j else acc.1 x),
           (j + 1 - SeqM.K a j j, j + 1 - SeqM.K a j j, SeqM.K a j j)) := by
        unfold SeqM.cellStep
        simp only [hk]
        rw [if_pos hlt]
      rw [hstep]
      apply SeqM.cellFoldDiag a j hi hprev rem _ hsort2.2
        (fun x hx => hvis x (List.mem_cons_of_mem j hx))
      · intro x
        simp only
        by_cases hxj : x = j
        · subst hxj
          rw [if_pos rfl, if_pos ⟨hvj, hjrem⟩]
        · rw [if_neg hxj, hJ x]
          by_cases hv : SeqM.vis a j x
          · by_cases hxrem : x ∈ rem
            · rw [if_neg (fun hc => hc.2 (List.mem_cons_of_mem j hxrem)),
                if_neg (fun hc => hc.2 hxrem)]
            · rw [if_pos ⟨hv, fun hc => by
                rcases List.mem_cons.mp hc with h | h
                · exact hxj h
                · exact hxrem h⟩, if_pos ⟨hv, hxrem⟩]
          · rw [if_neg (fun hc => hv hc.1), if_neg (fun hc => hv hc.1)]
      · rfl
      · intro m hm
        simp only
        have := hdom m hm
        omega
      · intro _ _
        simp only
        exact le_rfl
    · -- the candidate does not beat the best: the best is unchanged
      have hlt2 : ¬ acc.2.2.2 < SeqM.K a i j := by rw [← hk]; exact hlt
      have hstep : SeqM.cellStep prev i acc j =
          ((fun x => if x = j then SeqM.K a i j else acc.1 x), acc.2) := by
        unfold SeqM.cellStep
        simp only [hk]
        rw [if_neg hlt2]
      rw [hstep]
      apply SeqM.cellFoldDiag a i hi hprev rem _ hsort2.2
        (fun x hx => hvis x (List.mem_cons_of_mem j hx))
      · intro x
        simp only
        by_cases hxj : x = j
        · subst hxj
          rw [if_pos rfl, if_pos ⟨hvj, hjrem⟩]
        · rw [if_neg hxj, hJ x]
          by_cases hv : SeqM.vis a i x
          · by_cases hxrem : x ∈ rem
            · rw [if_neg (fun hc => hc.2 (List.mem_cons_of_mem j hxrem)),
                if_neg (fun hc => hc.2 hxrem)]
            · rw [if_pos ⟨hv, fun hc => by
                rcases List.mem_cons.mp hc with h | h
                · exact hxj h
                · exact hxrem h⟩, if_pos ⟨hv, hxrem⟩]
          · rw [if_neg (fun hc => hv hc.1), if_neg (fun hc => hv hc.1)]
      · exact hdiag
      · exact hdom
      · intro hv hrem
        simp only
        by_cases hij : i = j
        · rw [← hij] at hlt2
          omega
        · exact hii hv (fun hc => by
            rcases List.mem_cons.mp hc with h | h
            · exact hij h
            · exact hrem h)

/-- The row fold on the full square region keeps the best block on the
diagonal. -/
theorem SeqM.rowFoldDiag (a : List Char) :
    ∀ (len r : Nat) (st : (Nat → Nat) × (Nat × Nat × Nat)),
      r + len = a.length →
      (∀ x, st.1 x = if r = 0 then 0 else SeqM.K a (r - 1) x) →
      st.2.1 = st.2.2.1 →
      (∀ m, m < r → SeqM.K a m m ≤ st.2.2.2) →
      ((List.range' r len).foldl (SeqM.rowStep a a 0 a.length) st).2.1 =
        ((List.range' r len).foldl (SeqM.rowStep a a 0 a.length) st).2.2.1
  | 0, r, st, _, _, hdiag, _ => hdiag
  | len + 1, r, st, hlen, hJ, hdiag, hdom => by
    rw [List.range'_succ, List.foldl_cons]
    have hr : r < a.length := by omega
    have hstep : SeqM.rowStep a a 0 a.length st r =
        (SeqM.b2j a (a.getD r ' ')).foldl (SeqM.cellStep st.1 r)
          ((fun _ => 0), st.2) := by
      unfold SeqM.rowStep
      rw [SeqM.js_full a (a.getD r ' ')]
    have hJ0 : ∀ x, ((fun _ => 0, st.2) :
        (Nat → Nat) × (Nat × Nat × Nat)).1 x =
        if SeqM.vis a r x ∧ x ∉ SeqM.b2j a (a.getD r ' ') then SeqM.K a r x
        else 0 := by
      intro x
      simp only
      by_cases hv : SeqM.vis a r x
      · rw [if_neg (fun hc => hc.2 ((SeqM.mem_b2j_vis hr).mpr hv))]
      · rw [if_neg (fun hc => hv hc.1)]
    have hii0 : SeqM.vis a r r → r ∉ SeqM.b2j a (a.getD r ' ') →
        SeqM.K a r r ≤ ((fun _ => 0, st.2) :
          (Nat → Nat) × (Nat × Nat × Nat)).2.2.2 :=
      fun hv hnot => absurd ((SeqM.mem_b2j_vis hr).mpr hv) hnot
    obtain ⟨hJ2, hdiag2, hdom2, hii2⟩ := @SeqM.cellFoldDiag a r hr
      st.1 hJ (SeqM.b2j a (a.getD r ' ')) ((fun _ => 0), st.2)
      (SeqM.b2j_sorted a _)
      (fun j hj => (SeqM.mem_b2j_vis hr).mp hj)
      hJ0 hdiag hdom hii0
    rw [hstep]
    apply SeqM.rowFoldDiag a len (r + 1) _ (by omega) ?_ hdiag2 ?_
    · intro x
      rw [if_neg (Nat.succ_ne_zero r), Nat.succ_sub_one, hJ2 x]
      by_cases hv : SeqM.vis a r x
      · rw [if_pos hv]
      · rw [if_neg hv, SeqM.K_not_vis hv]
    · intro m hm
      rcases Nat.lt_succ_iff_lt_or_eq.mp hm with h | h
      · exact hdom2 m h
      · subst h
        by_cases hv : SeqM.vis a m m
        · exact hii2 hv
        · rw [SeqM.K_not_vis hv]
          exact Nat.zero_le _

/-- On the full square region of `a` against itself the main loop's best
block is diagonal. -/
theorem SeqM.mainLoop_diag (a : List Char) :
    (SeqM.mainLoop a a 0 a.length 0 a.length).1 =
      (SeqM.mainLoop a a 0 a.length 0 a.length).2.1 := by
  unfold SeqM.mainLoop
  exact SeqM.rowFoldDiag a (a.length - 0) 0 ((fun _ => 0), (0, 0, 0))
    (by omega) (fun x => by rw [if_pos rfl]) rfl
    (fun m hm => absurd hm (Nat.not_lt_zero m))

/-- Backward extension along the diagonal runs to the region corner. -/
theorem SeqM.extendBack_diag (a : List Char) :
    ∀ (bi bs : Nat), SeqM.extendBack a a 0 0 bi bi bs = (0, 0, bs + bi)
  | 0, _ => by
    unfold SeqM.extendBack
    rfl
  | bi + 1, bs => by
    unfold SeqM.extendBack
    rw [if_pos ⟨Nat.succ_pos bi, Nat.succ_pos bi, rfl⟩]
    simp only [Nat.add_sub_cancel]
    rw [SeqM.extendBack_diag a bi (bs + 1)]
    have harith : bs + 1 + bi = bs + (bi + 1) := by omega
    rw [harith]

/-- Forward extension along the diagonal runs to the region corner. -/
theorem SeqM.extendFwd_diag (a : List Char) :
    ∀ (fuel bs : Nat), a.length ≤ bs + fuel → bs ≤ a.length →
      SeqM.extendFwd a a a.length a.length 0 0 fuel bs = a.length
  | 0, bs, h1, h2 => by
    unfold SeqM.extendFwd
    omega
  | fuel + 1, bs, h1, h2 => by
    unfold SeqM.extendFwd
    by_cases hbs : bs < a.length
    · rw [if_pos ⟨by omega, by omega, rfl⟩]
      exact SeqM.extendFwd_diag a fuel (bs + 1) (by omega) (by omega)
    · rw [if_neg (fun hc => hbs (by omega))]
      omega

/-- On identical sequences `find_longest_match` returns the whole region in
one block. -/
theorem SeqM.findLongestMatch_self (a : List Char) :
    SeqM.findLongestMatch a a 0 a.length 0 a.length = (0, 0, a.length) := by
  obtain ⟨m1, m2, m3, m4⟩ := SeqM.mainLoop_bounds a a 0 a.length 0 a.length
  have hdg := SeqM.mainLoop_diag a
  unfold SeqM.findLongestMatch
  simp only
  rw [← hdg]
  have hble : (SeqM.mainLoop a a 0 a.length 0 a.length).1 +
      (SeqM.mainLoop a a 0 a.length 0 a.length).2.2 ≤ a.length := by
    rcases Nat.eq_zero_or_pos (SeqM.mainLoop a a 0 a.length 0 a.length).2.2 with
      hz | hp
    · have := m3 hz
      omega
    · exact (m4 (by omega)).1
  rw [SeqM.extendBack_diag a (SeqM.mainLoop a a 0 a.length 0 a.length).1
    (SeqM.mainLoop a a 0 a.length 0 a.length).2.2]
  simp only
  rw [SeqM.extendFwd_diag a a.length
    ((SeqM.mainLoop a a 0 a.length 0 a.length).2.2 +
      (SeqM.mainLoop a a 0 a.length 0 a.length).1) (by omega) (by omega)]

/-- The total matched size of a sequence against itself is its length. -/
theorem SeqM.matchTotal_self (a : List Char) :
    SeqM.matchTotal a a = a.length := by
  unfold SeqM.matchTotal
  cases hn : a.length + a.length with
  | zero => simp only [SeqM.matchTotalF]; omega
  | succ f =>
    simp only [SeqM.matchTotalF, SeqM.findLongestMatch_self a]
    by_cases hz : a.length = 0
    · rw [if_pos hz]
      omega
    · rw [if_neg hz, if_neg (by omega), if_neg (by omega)]
      omega

/-- The ratio of a token with itself is exactly `1`. -/
theorem SeqM.ratio_self (a : List Char) : SeqM.ratio a a = 1 := by
  unfold SeqM.ratio
  split
  · rfl
  · next hne =>
    rw [SeqM.matchTotal_self a]
    have hpos : (0 : ℚ) < (a.length : ℚ) + (a.length : ℚ) := by
      have : 0 < a.length := by omega
      push_cast
      exact_mod_cast by positivity
    rw [div_eq_one_iff_eq (ne_of_gt hpos)]
    ring

/-! ## C6 (amended): scorer range and reflexivity -/

/-- C6 (amended): the similarity scorer used by the engine
(`SequenceMatcher` ratio over two identity tokens) returns a value in the
closed interval `[0, 1]` for all inputs and returns exactly `1.0` when the
two tokens are identical; it is not symmetric in general (see the
counterexample). -/
theorem C6_scorer_range_refl (x y : List Char) :
    (0 ≤ SeqM.ratio x y ∧ SeqM.ratio x y ≤ 1) ∧ SeqM.ratio x x = 1 :=
  ⟨⟨SeqM.ratio_nonneg x y, SeqM.ratio_le_one x y⟩, SeqM.ratio_self x⟩

/-! ## The inner candidate scan -/

/-- A non-candidate row extends the scan invariant without touching the
accumulator. -/
theorem ScanInv.extendNotCand {tol soglia : ℚ} {usedC : List Nat}
    {nomeD : List Char} {dare : ℚ} {seen : List Lavoro} {st : BestSt}
    (h : ScanInv tol soglia usedC nomeD dare seen st) (c : Lavoro)
    (hc : ¬ isCandidate tol soglia usedC nomeD dare c) :
    ScanInv tol soglia usedC nomeD dare (seen ++ [c]) st := by
  rcases h with ⟨h1, h2, h3, h4⟩ | ⟨m, pre, post, h1, h2, h3, h4, h5, h6, h7⟩
  · refine Or.inl ⟨h1, h2, h3, ?_⟩
    intro x hx
    rcases List.mem_append.mp hx with hx | hx
    · exact h4 x hx
    · rw [List.mem_singleton.mp hx]; exact hc
  · refine Or.inr ⟨m, pre, post ++ [c], h1, ?_, h3, h4, h5, ?_, h7⟩
    · rw [h2]; simp
    · intro x hx hcand
      rcases List.mem_append.mp hx with hx | hx
      · exact h6 x hx hcand
      · rw [List.mem_singleton.mp hx] at hcand; exact absurd hcand hc

/-- One inner-loop step preserves the scan invariant. -/
theorem scanStep_inv {tol soglia : ℚ} {usedC : List Nat} {nomeD : List Char}
    {dare : ℚ} {seen : List Lavoro} {st : BestSt}
    (h : ScanInv tol soglia usedC nomeD dare seen st) (c : Lavoro) :
    ScanInv tol soglia usedC nomeD dare (seen ++ [c])
      (scanStep tol soglia usedC nomeD dare st c) := by
  unfold scanStep
  by_cases hid : c.ID_Originale ∈ usedC
  · simp only [if_pos hid]
    exact h.extendNotCand c (fun hc => hc.1 hid)
  · simp only [if_neg hid]
    by_cases hdiff : |dare - c.Avere_Num| ≤ tol
    · simp only [if_pos hdiff]
      by_cases hsim : soglia ≤ similarita nomeD c.Nome_Norm
      · simp only [if_pos hsim]
        have hcand : isCandidate tol soglia usedC nomeD dare c := ⟨hid, hdiff, hsim⟩
        by_cases himp : st.miglior_similarita < similarita nomeD c.Nome_Norm
        · -- strictly more similar: the candidate replaces the best
          simp only [if_pos himp]
          refine Or.inr ⟨c, seen, [], rfl, by simp, hcand, rfl, rfl, ?_, ?_⟩
          · intro x hx hcx
            rcases List.mem_append.mp hx with hx | hx
            · rcases h with ⟨_, h2, _, h4⟩ | ⟨m, pre, post, _, _, _, h5, _, h6, _⟩
              · exact absurd hcx (h4 x hx)
              · rcases h6 x hx hcx with hlt | ⟨heq, _⟩
                · exact Or.inl (lt_trans (h5 ▸ hlt) himp)
                · exact Or.inl (heq ▸ h5 ▸ himp)
            · rw [List.mem_singleton.mp hx]
              exact Or.inr ⟨rfl, le_refl _⟩
          · intro x hx hcx
            rcases h with ⟨_, h2, _, h4⟩ | ⟨m, pre, post, _, _, _, h5, _, h6, _⟩
            · exact absurd hcx (h4 x hx)
            · rcases h6 x hx hcx with hlt | ⟨heq, _⟩
              · exact Or.inl (lt_trans (h5 ▸ hlt) himp)
              · exact Or.inl (heq ▸ h5 ▸ himp)
        · simp only [if_neg himp]
          by_cases heq : similarita nomeD c.Nome_Norm = st.miglior_similarita
          · simp only [if_pos heq]
            rcases h with ⟨_, h2, _, _⟩ | ⟨m, pre, post, h1, h2, h3, h5, h5d, h6, h7⟩
            · -- impossible: similarities are non-negative, the initial best
              -- similarity is -1
              exfalso
              have := similarita_nonneg nomeD c.Nome_Norm
              rw [heq, h2] at this
              norm_num at this
            · by_cases hd : |dare - c.Avere_Num| < st.miglior_diff
              · -- equally similar, strictly smaller difference: replace
                simp only [if_pos hd]
                refine Or.inr ⟨c, seen, [], rfl, by simp, hcand, (heq.trans h5).symm ▸ h5, rfl, ?_, ?_⟩
                · intro x hx hcx
                  rcases List.mem_append.mp hx with hx | hx
                  · rcases h6 x hx hcx with hlt | ⟨hxeq, hxle⟩
                    · exact Or.inl (by rw [heq, h5]; exact h5 ▸ hlt)
                    · refine Or.inr ⟨by rw [heq, h5, hxeq], ?_⟩
                      exact le_of_lt (lt_of_lt_of_le (h5d ▸ hd) (h5d ▸ hxle))
                  · rw [List.mem_singleton.mp hx]
                    exact Or.inr ⟨rfl, le_refl _⟩
                · intro x hx hcx
                  rcases h6 x hx hcx with hlt | ⟨hxeq, hxle⟩
                  · exact Or.inl (by rw [heq, h5]; exact h5 ▸ hlt)
                  · refine Or.inr ⟨by rw [heq, h5, hxeq], ?_⟩
                    exact lt_of_lt_of_le (h5d ▸ hd) (h5d ▸ hxle)
              · -- equally similar but no smaller difference: keep the best
                simp only [if_neg hd]
                refine Or.inr ⟨m, pre, post ++ [c], h1, by rw [h2]; simp, h3, h5, h5d, ?_, h7⟩
                intro x hx hcx
                rcases List.mem_append.mp hx with hx | hx
                · exact h6 x hx hcx
                · rw [List.mem_singleton.mp hx]
                  refine Or.inr ⟨heq.trans h5, ?_⟩
                  rw [← h5d]; exact le_of_not_lt hd
          · -- strictly less similar: keep the best
            simp only [if_neg heq]
            have hlt : similarita nomeD c.Nome_Norm < st.miglior_similarita :=
              lt_of_le_of_ne (le_of_not_lt himp) heq
            rcases h with ⟨_, h2, _, _⟩ | ⟨m, pre, post, h1, h2, h3, h5, h5d, h6, h7⟩
            · exfalso
              have := similarita_nonneg nomeD c.Nome_Norm
              rw [h2] at hlt
              exact absurd (lt_of_le_of_lt this hlt) (by norm_num)
            · refine Or.inr ⟨m, pre, post ++ [c], h1, by rw [h2]; simp, h3, h5, h5d, ?_, h7⟩
              intro x hx hcx
              rcases List.mem_append.mp hx with hx | hx
              · exact h6 x hx hcx
              · rw [List.mem_singleton.mp hx]
                exact Or.inl (h5 ▸ hlt)
      · simp only [if_neg hsim]
        exact h.extendNotCand c (fun hc => hsim hc.2.2)
    · simp only [if_neg hdiff]
      exact h.extendNotCand c (fun hc => hdiff hc.2.1)

/-- The inner-loop fold preserves the scan invariant. -/
theorem scanFold_inv {tol soglia : ℚ} {usedC : List Nat} {nomeD : List Char}
    {dare : ℚ} :
    ∀ (cs seen : List Lavoro) (st : BestSt),
      ScanInv tol soglia usedC nomeD dare seen st →
      ScanInv tol soglia usedC nomeD dare (seen ++ cs)
        (cs.foldl (scanStep tol soglia usedC nomeD dare) st)
  | [], seen, st, h => by simpa using h
  | c :: cs, seen, st, h => by
    have h3 := scanFold_inv cs (seen ++ [c]) _ (scanStep_inv h c)
    simpa using h3

/-- The invariant established by the whole inner loop. -/
theorem scanCrediti_inv (tol soglia : ℚ) (cs : List Lavoro) (usedC : List Nat)
    (d : Lavoro) :
    ScanInv tol soglia usedC d.Nome_Norm d.Dare_Num cs
      (scanCrediti tol soglia cs usedC d) := by
  have h0 : ScanInv tol soglia usedC d.Nome_Norm d.Dare_Num []
      { miglior_match := none, miglior_similarita := -1, miglior_diff := 0 } :=
    Or.inl ⟨rfl, rfl, rfl, by simp⟩
  simpa using scanFold_inv cs [] _ h0

/-- What a successful inner scan guarantees about the chosen credit. -/
theorem scanCrediti_some {tol soglia : ℚ} {cs : List Lavoro} {usedC : List Nat}
    {d : Lavoro} {m : Lavoro}
    (h : (scanCrediti tol soglia cs usedC d).miglior_match = some m) :
    ∃ pre post, cs = pre ++ m :: post ∧
      isCandidate tol soglia usedC d.Nome_Norm d.Dare_Num m ∧
      (scanCrediti tol soglia cs usedC d).miglior_similarita =
        similarita d.Nome_Norm m.Nome_Norm ∧
      (scanCrediti tol soglia cs usedC d).miglior_diff =
        |d.Dare_Num - m.Avere_Num| ∧
      (∀ c ∈ cs, isCandidate tol soglia usedC d.Nome_Norm d.Dare_Num c →
        lexNoBetter d.Nome_Norm d.Dare_Num c m) ∧
      (∀ c ∈ pre, isCandidate tol soglia usedC d.Nome_Norm d.Dare_Num c →
        lexWorse d.Nome_Norm d.Dare_Num c m) := by
  rcases scanCrediti_inv tol soglia cs usedC d with ⟨h1, _⟩ |
    ⟨m', pre, post, h1, h2, h3, h4, h5, h6, h7⟩
  · rw [h] at h1; cases h1
  · have hm : m' = m := by rw [h] at h1; exact (Option.some.inj h1).symm
    subst hm
    exact ⟨pre, post, h2, h3, h4, h5, h6, h7⟩

/-- What an unsuccessful inner scan guarantees. -/
theorem scanCrediti_none {tol soglia : ℚ} {cs : List Lavoro} {usedC : List Nat}
    {d : Lavoro}
    (h : (scanCrediti tol soglia cs usedC d).miglior_match = none) :
    ∀ c ∈ cs, ¬ isCandidate tol soglia usedC d.Nome_Norm d.Dare_Num c := by
  rcases scanCrediti_inv tol soglia cs usedC d with ⟨_, _, _, h4⟩ |
    ⟨m', pre, post, h1, _⟩
  · exact h4
  · rw [h] at h1; cases h1

/-! ## The pools -/

/-- Inserting keeps the elements. -/
theorem insertAsc_perm (key : Lavoro → ℚ) (x : Lavoro) :
    ∀ l : List Lavoro, (insertAsc key x l).Perm (x :: l)
  | [] => .refl _
  | y :: ys => by
    unfold insertAsc
    split
    · exact .refl _
    · exact ((insertAsc_perm key x ys).cons y).trans (List.Perm.swap x y ys)

/-- The sort is a permutation. -/
theorem sortAsc_perm (key : Lavoro → ℚ) :
    ∀ l : List Lavoro, (sortAsc key l).Perm l
  | [] => .refl _
  | x :: xs =>
    (insertAsc_perm key x (sortAsc key xs)).trans ((sortAsc_perm key xs).cons x)

/-- Membership in the credit pool. -/
theorem mem_creditiOf {df : List Entry} {l : Lavoro} :
    l ∈ creditiOf df ↔ l ∈ dfLavoro df ∧ 0 < l.Avere_Num := by
  unfold creditiOf
  rw [(sortAsc_perm _ _).mem_iff, List.mem_filter]
  simp

/-- Membership in the debit pool. -/
theorem mem_debitiOf {df : List Entry} {l : Lavoro} :
    l ∈ debitiOf df ↔ l ∈ dfLavoro df ∧ 0 < l.Dare_Num := by
  unfold debitiOf
  rw [(sortAsc_perm _ _).mem_iff, List.mem_filter]
  simp

/-- Every working row carries the normalized token of its description. -/
theorem dfLavoro_norm {df : List Entry} {l : Lavoro} (h : l ∈ dfLavoro df) :
    l.Nome_Norm = normalizza_nome_cliente l.Descrizione := by
  unfold dfLavoro at h
  rcases List.mem_map.mp h with ⟨p, _, rfl⟩
  rfl

/-- Every working row reassembles the input entry sitting at its
identifier. -/
theorem dfLavoro_entry {df : List Entry} {l : Lavoro} (h : l ∈ dfLavoro df) :
    df.get? l.ID_Originale =
      some ⟨l.Data_Reg, l.Descrizione, l.Dare_Num, l.Avere_Num⟩ := by
  unfold dfLavoro at h
  rcases List.mem_map.mp h with ⟨⟨i, e⟩, hm, rfl⟩
  have hget : df.get? i = some e := List.mk_mem_enum_iff_get?.mp hm
  cases e
  exact hget

/-- The identifiers of the working rows are the positions `0, …, n-1`. -/
theorem dfLavoro_map_id (df : List Entry) :
    (dfLavoro df).map (fun l => l.ID_Originale) = List.range df.length := by
  unfold dfLavoro
  rw [List.map_map]
  have : ((fun l : Lavoro => l.ID_Originale) ∘ fun p : Nat × Entry =>
      mkLavoro p.1 p.2) = Prod.fst := rfl
  rw [this, List.enum_map_fst]

/-! ## Soundness of every emitted pair -/

/-- One outer-loop step preserves pair soundness. -/
theorem processDebito_pairs {tol soglia : ℚ} {cs : List Lavoro} {st : RState}
    {d : Lavoro}
    (hd : d.Nome_Norm = normalizza_nome_cliente d.Descrizione)
    (hcs : ∀ c ∈ cs, c.Nome_Norm = normalizza_nome_cliente c.Descrizione)
    (h : ∀ p ∈ st.riconciliati, PairSound tol soglia p) :
    ∀ p ∈ (processDebito tol soglia cs st d).riconciliati,
      PairSound tol soglia p := by
  unfold processDebito
  by_cases hid : d.ID_Originale ∈ st.id_usati_debito
  · simp only [if_pos hid]; exact h
  · simp only [if_neg hid]
    cases hm : (scanCrediti tol soglia cs st.id_usati_credito d).miglior_match with
    | none => simpa [hm] using h
    | some m =>
      rcases scanCrediti_some hm with ⟨pre, post, hsplit, hcand, hms, hmd, _, _⟩
      have hmcs : m ∈ cs := by rw [hsplit]; simp
      simp only [hm]
      intro p hp
      rcases List.mem_append.mp hp with hp | hp
      · exact h p hp
      · rw [List.mem_singleton.mp hp]
        refine ⟨?_, ?_, ?_, ?_⟩
        · rw [hms]; exact hcand.2.2
        · rw [hms]
          show similarita d.Nome_Norm m.Nome_Norm =
            similarita (normalizza_nome_cliente d.Descrizione)
              (normalizza_nome_cliente m.Descrizione)
          rw [← hd, ← hcs m hmcs]
        · show (scanCrediti tol soglia cs st.id_usati_credito d).miglior_diff =
            |d.Dare_Num - m.Avere_Num|
          exact hmd
        · exact hcand.2.1

/-- The outer fold preserves pair soundness. -/
theorem riconciliaFold_pairs {tol soglia : ℚ} {cs : List Lavoro}
    (hcs : ∀ c ∈ cs, c.Nome_Norm = normalizza_nome_cliente c.Descrizione) :
    ∀ (ds : List Lavoro) (st : RState),
      (∀ d ∈ ds, d.Nome_Norm = normalizza_nome_cliente d.Descrizione) →
      (∀ p ∈ st.riconciliati, PairSound tol soglia p) →
      ∀ p ∈ (ds.foldl (processDebito tol soglia cs) st).riconciliati,
        PairSound tol soglia p
  | [], st, _, h => h
  | d :: ds, st, hds, h =>
    riconciliaFold_pairs hcs ds _ (fun x hx => hds x (List.mem_cons_of_mem d hx))
      (processDebito_pairs (hds d (List.mem_cons_self d ds)) hcs h)

/-- Every pair emitted by the engine is sound. -/
theorem pairs_sound (df : List Entry) (tol soglia : ℚ) :
    ∀ p ∈ (riconcilia_transazioni df tol soglia).1, PairSound tol soglia p := by
  have hcs : ∀ c ∈ creditiOf df,
      c.Nome_Norm = normalizza_nome_cliente c.Descrizione :=
    fun c hc => dfLavoro_norm (mem_creditiOf.mp hc).1
  have hds : ∀ d ∈ debitiOf df,
      d.Nome_Norm = normalizza_nome_cliente d.Descrizione :=
    fun d hd => dfLavoro_norm (mem_debitiOf.mp hd).1
  exact riconciliaFold_pairs hcs (debitiOf df) _ hds (by simp)

/-! ## The consumed-identifier invariant -/

/-- Identifiers of working rows are in range. -/
theorem dfLavoro_id_lt {df : List Entry} {l : Lavoro} (h : l ∈ dfLavoro df) :
    l.ID_Originale < df.length := by
  obtain ⟨hlt, _⟩ := List.get?_eq_some.mp (dfLavoro_entry h)
  exact hlt

/-- Two working rows with the same identifier carry the same amounts (they
reassemble the same input entry). -/
theorem dfLavoro_same_id {df : List Entry} {l1 l2 : Lavoro}
    (h1 : l1 ∈ dfLavoro df) (h2 : l2 ∈ dfLavoro df)
    (hid : l1.ID_Originale = l2.ID_Originale) :
    l1.Dare_Num = l2.Dare_Num ∧ l1.Avere_Num = l2.Avere_Num := by
  have e1 := dfLavoro_entry h1
  have e2 := dfLavoro_entry h2
  rw [hid] at e1
  have he := Option.some.inj (e2.symm.trans e1)
  exact ⟨(congrArg Entry.Dare_Num he).symm, (congrArg Entry.Avere_Num he).symm⟩

/-- One outer-loop step preserves the consumed-identifier invariant. -/
theorem processDebito_used {df : List Entry} {tol soglia : ℚ} {st : RState}
    {d : Lavoro} (hd : d ∈ debitiOf df) (h : UsedInv df st) :
    UsedInv df (processDebito tol soglia (creditiOf df) st d) := by
  obtain ⟨h1, h2, h3, h4, h5, h6⟩ := h
  unfold processDebito
  by_cases hid : d.ID_Originale ∈ st.id_usati_debito
  · simp only [if_pos hid]
    exact ⟨h1, h2, h3, h4, h5, h6⟩
  · simp only [if_neg hid]
    cases hm : (scanCrediti tol soglia (creditiOf df)
        st.id_usati_credito d).miglior_match with
    | none => exact ⟨h1, h2, h3, h4, h5, h6⟩
    | some m =>
      rcases scanCrediti_some hm with ⟨pre, post, hsplit, hcand, _, _, _, _⟩
      have hmc : m ∈ creditiOf df := by rw [hsplit]; simp
      refine ⟨List.nodup_cons.mpr ⟨hid, h1⟩,
        List.nodup_cons.mpr ⟨hcand.1, h2⟩, ?_, ?_, ?_, ?_⟩
      · intro i hi
        rcases List.mem_cons.mp hi with rfl | hi
        · exact ⟨d, hd, rfl⟩
        · exact h3 i hi
      · intro i hi
        rcases List.mem_cons.mp hi with rfl | hi
        · exact ⟨m, hmc, rfl⟩
        · exact h4 i hi
      · simp only [List.length_append, List.length_cons, List.length_nil, h5]
      · simp only [List.length_cons, h6]

/-- The outer fold preserves the consumed-identifier invariant. -/
theorem riconciliaFold_used {df : List Entry} {tol soglia : ℚ} :
    ∀ (ds : List Lavoro) (st : RState), (∀ d ∈ ds, d ∈ debitiOf df) →
      UsedInv df st →
      UsedInv df (ds.foldl (processDebito tol soglia (creditiOf df)) st)
  | [], _, _, h => h
  | d :: ds, st, hds, h =>
    riconciliaFold_used ds _ (fun x hx => hds x (List.mem_cons_of_mem d hx))
      (processDebito_used (hds d (List.mem_cons_self d ds)) h)

/-- The invariant holds of the final state of the matching pass. -/
theorem riconciliaState_used (df : List Entry) (tol soglia : ℚ) :
    UsedInv df (riconciliaState df tol soglia) :=
  riconciliaFold_used (debitiOf df) _ (fun _ h => h)
    ⟨List.nodup_nil, List.nodup_nil, by simp, by simp, rfl, rfl⟩

/-- Under the row well-formedness assumption the two pools have no
identifier in common. -/
theorem pools_disjoint {df : List Entry}
    (hwf : ∀ e ∈ df, ¬(0 < e.Dare_Num ∧ 0 < e.Avere_Num)) {i : Nat}
    (hd : ∃ l ∈ debitiOf df, l.ID_Originale = i)
    (hc : ∃ l ∈ creditiOf df, l.ID_Originale = i) : False := by
  rcases hd with ⟨l1, hl1, rfl⟩
  rcases hc with ⟨l2, hl2, hid⟩
  rcases mem_debitiOf.mp hl1 with ⟨hm1, hpos1⟩
  rcases mem_creditiOf.mp hl2 with ⟨hm2, hpos2⟩
  have hfields := dfLavoro_same_id hm2 hm1 hid
  have hmem : (⟨l1.Data_Reg, l1.Descrizione, l1.Dare_Num, l1.Avere_Num⟩ : Entry)
      ∈ df := List.get?_mem (dfLavoro_entry hm1)
  exact hwf _ hmem ⟨hpos1, hfields.2 ▸ hpos2⟩

/-- The residue identifiers are the positions outside the consumed sets. -/
theorem residuoIds_eq (df : List Entry) (tol soglia : ℚ) :
    residuoIds df tol soglia = (List.range df.length).filter (fun j =>
      decide (j ∉ (riconciliaState df tol soglia).id_usati_debito ++
        (riconciliaState df tol soglia).id_usati_credito)) := by
  unfold residuoIds
  rw [← List.enum_map_fst df, List.filter_map]
  rfl

/-- Membership in the residue identifiers. -/
theorem mem_residuoIds {df : List Entry} {tol soglia : ℚ} {i : Nat} :
    i ∈ residuoIds df tol soglia ↔ i < df.length ∧
      i ∉ (riconciliaState df tol soglia).id_usati_debito ++
        (riconciliaState df tol soglia).id_usati_credito := by
  rw [residuoIds_eq, List.mem_filter, List.mem_range]
  simp

/-- The residue has as many rows as there are residue identifiers. -/
theorem residuo_length (df : List Entry) (tol soglia : ℚ) :
    (riconcilia_transazioni df tol soglia).2.length =
      (residuoIds df tol soglia).length := by
  unfold riconcilia_transazioni residuoIds
  simp

/-! ## C1 (amended): partition under row well-formedness -/

/-- C1 (amended): for every list of ledger entries in which no entry has
both a strictly positive debit and a strictly positive credit amount, and
every tolerance and threshold, the two outputs of `riconcilia_transazioni`
partition the input: `|pairs|·2 + |residue| = |entries|`, and every input
position is in exactly one of the consumed-debit set (the debit sides of
the pairs), the consumed-credit set (the credit sides of the pairs), and
the residue. -/
theorem C1_partition (df : List Entry) (tolleranza soglia_similarita : ℚ)
    (hwf : ∀ e ∈ df, ¬(0 < e.Dare_Num ∧ 0 < e.Avere_Num)) :
    (2 * (riconcilia_transazioni df tolleranza soglia_similarita).1.length +
      (riconcilia_transazioni df tolleranza soglia_similarita).2.length =
        df.length) ∧
    (riconcilia_transazioni df tolleranza soglia_similarita).1.length =
      (riconciliaState df tolleranza soglia_similarita).id_usati_debito.length ∧
    (riconcilia_transazioni df tolleranza soglia_similarita).1.length =
      (riconciliaState df tolleranza soglia_similarita).id_usati_credito.length ∧
    ∀ i < df.length,
      (i ∈ (riconciliaState df tolleranza soglia_similarita).id_usati_debito ∧
        i ∉ (riconciliaState df tolleranza soglia_similarita).id_usati_credito ∧
        i ∉ residuoIds df tolleranza soglia_similarita) ∨
      (i ∉ (riconciliaState df tolleranza soglia_similarita).id_usati_debito ∧
        i ∈ (riconciliaState df tolleranza soglia_similarita).id_usati_credito ∧
        i ∉ residuoIds df tolleranza soglia_similarita) ∨
      (i ∉ (riconciliaState df tolleranza soglia_similarita).id_usati_debito ∧
        i ∉ (riconciliaState df tolleranza soglia_similarita).id_usati_credito ∧
        i ∈ residuoIds df tolleranza soglia_similarita) := by
  obtain ⟨h1, h2, h3, h4, h5, h6⟩ :=
    riconciliaState_used df tolleranza soglia_similarita
  have hdisj : ∀ i, i ∈ (riconciliaState df tolleranza
      soglia_similarita).id_usati_debito →
      i ∈ (riconciliaState df tolleranza soglia_similarita).id_usati_credito →
      False :=
    fun i hud huc => pools_disjoint hwf (h3 i hud) (h4 i huc)
  constructor
  · -- counting
    have hnodup : ((riconciliaState df tolleranza
        soglia_similarita).id_usati_debito ++
        (riconciliaState df tolleranza soglia_similarita).id_usati_credito).Nodup :=
      List.Nodup.append h1 h2 hdisj
    have hsub : ∀ i ∈ (riconciliaState df tolleranza
        soglia_similarita).id_usati_debito ++
        (riconciliaState df tolleranza soglia_similarita).id_usati_credito,
        i < df.length := by
      intro i hi
      rcases List.mem_append.mp hi with hi | hi
      · rcases h3 i hi with ⟨l, hl, rfl⟩
        exact dfLavoro_id_lt (mem_debitiOf.mp hl).1
      · rcases h4 i hi with ⟨l, hl, rfl⟩
        exact dfLavoro_id_lt (mem_creditiOf.mp hl).1
    have hperm : ((List.range df.length).filter (fun j =>
        decide (j ∈ (riconciliaState df tolleranza
          soglia_similarita).id_usati_debito ++
          (riconciliaState df tolleranza soglia_similarita).id_usati_credito))).Perm
        ((riconciliaState df tolleranza soglia_similarita).id_usati_debito ++
          (riconciliaState df tolleranza soglia_similarita).id_usati_credito) := by
      refine (List.perm_ext_iff_of_nodup (List.Nodup.filter _ (List.nodup_range _))
        hnodup).mpr ?_
      intro a
      rw [List.mem_filter, List.mem_range]
      constructor
      · intro ⟨_, ha⟩
        simpa using ha
      · intro ha
        exact ⟨hsub a ha, by simpa using ha⟩
    have hsplit := List.filter_append_perm (fun j =>
        decide (j ∈ (riconciliaState df tolleranza
          soglia_similarita).id_usati_debito ++
          (riconciliaState df tolleranza soglia_similarita).id_usati_credito))
        (List.range df.length)
    have hlen := hsplit.length_eq
    rw [List.length_append, List.length_range] at hlen
    have hres : (residuoIds df tolleranza soglia_similarita).length =
        ((List.range df.length).filter (fun j =>
          !decide (j ∈ (riconciliaState df tolleranza
            soglia_similarita).id_usati_debito ++
            (riconciliaState df tolleranza
              soglia_similarita).id_usati_credito))).length := by
      rw [residuoIds_eq]
      congr 1
      simp
    rw [residuo_length df tolleranza soglia_similarita, hres]
    have e1 := hperm.length_eq
    have e2 := List.length_append
      (riconciliaState df tolleranza soglia_similarita).id_usati_debito
      (riconciliaState df tolleranza soglia_similarita).id_usati_credito
    have e3 : (riconcilia_transazioni df tolleranza soglia_similarita).1.length =
        (riconciliaState df tolleranza soglia_similarita).id_usati_debito.length :=
      h5
    omega
  · have e4 : (riconcilia_transazioni df tolleranza soglia_similarita).1.length =
        (riconciliaState df tolleranza soglia_similarita).id_usati_debito.length :=
      h5
    have e5 : (riconcilia_transazioni df tolleranza soglia_similarita).1.length =
        (riconciliaState df tolleranza
          soglia_similarita).id_usati_credito.length := h5.trans h6
    refine ⟨e4, e5, ?_⟩
    intro i hi
    by_cases hud : i ∈ (riconciliaState df tolleranza
        soglia_similarita).id_usati_debito
    · by_cases huc : i ∈ (riconciliaState df tolleranza
          soglia_similarita).id_usati_credito
      · exact absurd (hdisj i hud huc) (fun h => h)
      · refine Or.inl ⟨hud, huc, ?_⟩
        intro hr
        exact (mem_residuoIds.mp hr).2 (List.mem_append.mpr (Or.inl hud))
    · by_cases huc : i ∈ (riconciliaState df tolleranza
          soglia_similarita).id_usati_credito
      · refine Or.inr (Or.inl ⟨hud, huc, ?_⟩)
        intro hr
        exact (mem_residuoIds.mp hr).2 (List.mem_append.mpr (Or.inr huc))
      · refine Or.inr (Or.inr ⟨hud, huc, ?_⟩)
        exact mem_residuoIds.mpr ⟨hi, fun hm => by
          rcases List.mem_append.mp hm with hm | hm
          · exact hud hm
          · exact huc hm⟩

unseal Rat.add Rat.mul Rat.sub Rat.inv in
/-- Witness for C1 on a concrete well-formed two-entry frame. -/
theorem C1_witness :
    (∀ e ∈ [(⟨.other, .str "A".toList, 1, 0⟩ : Entry),
            ⟨.other, .str "A".toList, 0, 1⟩],
      ¬(0 < e.Dare_Num ∧ 0 < e.Avere_Num)) ∧
    ((2 * (riconcilia_transazioni
        [⟨.other, .str "A".toList, 1, 0⟩, ⟨.other, .str "A".toList, 0, 1⟩]
        0 0).1.length +
      (riconcilia_transazioni
        [⟨.other, .str "A".toList, 1, 0⟩, ⟨.other, .str "A".toList, 0, 1⟩]
        0 0).2.length =
        ([(⟨.other, .str "A".toList, 1, 0⟩ : Entry),
          ⟨.other, .str "A".toList, 0, 1⟩]).length) ∧
      (riconcilia_transazioni
        [⟨.other, .str "A".toList, 1, 0⟩, ⟨.other, .str "A".toList, 0, 1⟩]
        0 0).1.length =
        (riconciliaState
          [⟨.other, .str "A".toList, 1, 0⟩, ⟨.other, .str "A".toList, 0, 1⟩]
          0 0).id_usati_debito.length ∧
      (riconcilia_transazioni
        [⟨.other, .str "A".toList, 1, 0⟩, ⟨.other, .str "A".toList, 0, 1⟩]
        0 0).1.length =
        (riconciliaState
          [⟨.other, .str "A".toList, 1, 0⟩, ⟨.other, .str "A".toList, 0, 1⟩]
          0 0).id_usati_credito.length ∧
      ∀ i < ([(⟨.other, .str "A".toList, 1, 0⟩ : Entry),
              ⟨.other, .str "A".toList, 0, 1⟩]).length,
        (i ∈ (riconciliaState
            [⟨.other, .str "A".toList, 1, 0⟩, ⟨.other, .str "A".toList, 0, 1⟩]
            0 0).id_usati_debito ∧
          i ∉ (riconciliaState
            [⟨.other, .str "A".toList, 1, 0⟩, ⟨.other, .str "A".toList, 0, 1⟩]
            0 0).id_usati_credito ∧
          i ∉ residuoIds
            [⟨.other, .str "A".toList, 1, 0⟩, ⟨.other, .str "A".toList, 0, 1⟩]
            0 0) ∨
        (i ∉ (riconciliaState
            [⟨.other, .str "A".toList, 1, 0⟩, ⟨.other, .str "A".toList, 0, 1⟩]
            0 0).id_usati_debito ∧
          i ∈ (riconciliaState
            [⟨.other, .str "A".toList, 1, 0⟩, ⟨.other, .str "A".toList, 0, 1⟩]
            0 0).id_usati_credito ∧
          i ∉ residuoIds
            [⟨.other, .str "A".toList, 1, 0⟩, ⟨.other, .str "A".toList, 0, 1⟩]
            0 0) ∨
        (i ∉ (riconciliaState
            [⟨.other, .str "A".toList, 1, 0⟩, ⟨.other, .str "A".toList, 0, 1⟩]
            0 0).id_usati_debito ∧
          i ∉ (riconciliaState
            [⟨.other, .str "A".toList, 1, 0⟩, ⟨.other, .str "A".toList, 0, 1⟩]
            0 0).id_usati_credito ∧
          i ∈ residuoIds
            [⟨.other, .str "A".toList, 1, 0⟩, ⟨.other, .str "A".toList, 0, 1⟩]
            0 0)) :=
  ⟨by decide,
   C1_partition [⟨.other, .str "A".toList, 1, 0⟩, ⟨.other, .str "A".toList, 0, 1⟩]
     0 0 (by decide)⟩

/-! ## C10: doubly non-positive entries always land in the residue -/

/-- C10: every input entry whose debit amount and credit amount are both
not strictly positive (including amounts degraded to `0.0` by the lenient
parser) enters neither the debit pool nor the credit pool, is consumed by
no pair, and always appears in the residue. -/
theorem C10_nonpositive_residue (df : List Entry)
    (tolleranza soglia_similarita : ℚ) (i : Nat) (hi : i < df.length)
    (hd : (df.get ⟨i, hi⟩).Dare_Num ≤ 0) (ha : (df.get ⟨i, hi⟩).Avere_Num ≤ 0) :
    (∀ l ∈ debitiOf df, l.ID_Originale ≠ i) ∧
    (∀ l ∈ creditiOf df, l.ID_Originale ≠ i) ∧
    i ∉ (riconciliaState df tolleranza soglia_similarita).id_usati_debito ∧
    i ∉ (riconciliaState df tolleranza soglia_similarita).id_usati_credito ∧
    df.get ⟨i, hi⟩ ∈ (riconcilia_transazioni df tolleranza soglia_similarita).2 := by
  obtain ⟨_, _, h3, h4, _, _⟩ :=
    riconciliaState_used df tolleranza soglia_similarita
  have hdeb : ∀ l ∈ debitiOf df, l.ID_Originale ≠ i := by
    intro l hl hlid
    rcases mem_debitiOf.mp hl with ⟨hm, hpos⟩
    have he := dfLavoro_entry hm
    rw [hlid, List.get?_eq_get hi] at he
    have hent := Option.some.inj he
    rw [hent] at hd
    exact absurd (lt_of_lt_of_le hpos hd) (lt_irrefl 0)
  have hcred : ∀ l ∈ creditiOf df, l.ID_Originale ≠ i := by
    intro l hl hlid
    rcases mem_creditiOf.mp hl with ⟨hm, hpos⟩
    have he := dfLavoro_entry hm
    rw [hlid, List.get?_eq_get hi] at he
    have hent := Option.some.inj he
    rw [hent] at ha
    exact absurd (lt_of_lt_of_le hpos ha) (lt_irrefl 0)
  have hud : i ∉ (riconciliaState df tolleranza
      soglia_similarita).id_usati_debito := by
    intro hmem
    rcases h3 i hmem with ⟨l, hl, hlid⟩
    exact hdeb l hl hlid
  have huc : i ∉ (riconciliaState df tolleranza
      soglia_similarita).id_usati_credito := by
    intro hmem
    rcases h4 i hmem with ⟨l, hl, hlid⟩
    exact hcred l hl hlid
  refine ⟨hdeb, hcred, hud, huc, ?_⟩
  unfold riconcilia_transazioni
  refine List.mem_map.mpr ⟨(i, df.get ⟨i, hi⟩), ?_, rfl⟩
  refine List.mem_filter.mpr ⟨?_, ?_⟩
  · exact List.mk_mem_enum_iff_get?.mpr (List.get?_eq_get hi)
  · simp only [decide_eq_true_eq]
    intro hm
    rcases List.mem_append.mp hm with hm | hm
    · exact hud hm
    · exact huc hm

/-- Witness for C10 on a concrete all-zero entry. -/
theorem C10_witness :
    (∀ l ∈ debitiOf [(⟨.other, .other, 0, 0⟩ : Entry)], l.ID_Originale ≠ 0) ∧
    (∀ l ∈ creditiOf [(⟨.other, .other, 0, 0⟩ : Entry)], l.ID_Originale ≠ 0) ∧
    0 ∉ (riconciliaState [(⟨.other, .other, 0, 0⟩ : Entry)] 0 0).id_usati_debito ∧
    0 ∉ (riconciliaState [(⟨.other, .other, 0, 0⟩ : Entry)] 0 0).id_usati_credito ∧
    ([(⟨.other, .other, 0, 0⟩ : Entry)].get ⟨0, by decide⟩) ∈
      (riconcilia_transazioni [(⟨.other, .other, 0, 0⟩ : Entry)] 0 0).2 :=
  C10_nonpositive_residue [(⟨.other, .other, 0, 0⟩ : Entry)] 0 0 0 (by decide)
    (by decide) (by decide)

/-! ## C4: tolerance respect -/

/-- C4: for every `ReconciledPair` produced by `riconcilia_transazioni`
with any non-negative tolerance, the absolute difference between the debit
amount and the credit amount recorded in the pair satisfies
`|Importo_Dare - Importo_Avere| ≤ tolleranza`. -/
theorem C4_tolerance (df : List Entry) (tolleranza soglia_similarita : ℚ)
    (h : 0 ≤ tolleranza) :
    ∀ p ∈ (riconcilia_transazioni df tolleranza soglia_similarita).1,
      |p.Importo_Dare - p.Importo_Avere| ≤ tolleranza :=
  fun p hp => (pairs_sound df tolleranza soglia_similarita p hp).2.2.2

/-- Witness for C4 on a concrete two-entry frame producing one pair. -/
theorem C4_witness :
    (0 : ℚ) ≤ 0 ∧
      ∀ p ∈ (riconcilia_transazioni
        [⟨.other, .str "A".toList, 1, 0⟩, ⟨.other, .str "A".toList, 0, 1⟩]
        0 0).1, |p.Importo_Dare - p.Importo_Avere| ≤ 0 :=
  ⟨le_refl 0,
   C4_tolerance [⟨.other, .str "A".toList, 1, 0⟩, ⟨.other, .str "A".toList, 0, 1⟩]
     0 0 (le_refl 0)⟩

/-! ## C2 (amended): threshold respect, and the sentinel above threshold 0 -/

/-- C2 (amended): every emitted pair clears the threshold
(`Similarita_Desc ≥ soglia_similarita`), and whenever the threshold is
strictly positive no entry whose identity token is the sentinel `"N/D"`
appears in any pair; at threshold exactly `0.0` the forced similarity
`0.0` passes the inclusive comparison (see the counterexample). -/
theorem C2_threshold_and_ND (df : List Entry) (tolleranza soglia_similarita : ℚ) :
    (∀ p ∈ (riconcilia_transazioni df tolleranza soglia_similarita).1,
      soglia_similarita ≤ p.Similarita_Desc) ∧
    (0 < soglia_similarita →
      ∀ p ∈ (riconcilia_transazioni df tolleranza soglia_similarita).1,
        normalizza_nome_cliente p.Descrizione_Dare ≠ NDtok ∧
        normalizza_nome_cliente p.Descrizione_Avere ≠ NDtok) := by
  constructor
  · exact fun p hp => (pairs_sound df tolleranza soglia_similarita p hp).1
  · intro hpos p hp
    have hs := (pairs_sound df tolleranza soglia_similarita p hp).1
    have he := (pairs_sound df tolleranza soglia_similarita p hp).2.1
    constructor
    · intro hnd
      rw [he] at hs
      unfold similarita at hs
      rw [if_pos (Or.inl hnd)] at hs
      exact absurd (lt_of_lt_of_le hpos hs) (lt_irrefl 0)
    · intro hnd
      rw [he] at hs
      unfold similarita at hs
      rw [if_pos (Or.inr hnd)] at hs
      exact absurd (lt_of_lt_of_le hpos hs) (lt_irrefl 0)

/-- Witness for C2 on a concrete frame at threshold `1/2`. -/
theorem C2_witness :
    (∀ p ∈ (riconcilia_transazioni
        [⟨.other, .str "A".toList, 1, 0⟩, ⟨.other, .str "A".toList, 0, 1⟩]
        0 (1/2)).1, (1/2 : ℚ) ≤ p.Similarita_Desc) ∧
    (∀ p ∈ (riconcilia_transazioni
        [⟨.other, .str "A".toList, 1, 0⟩, ⟨.other, .str "A".toList, 0, 1⟩]
        0 (1/2)).1,
      normalizza_nome_cliente p.Descrizione_Dare ≠ NDtok ∧
      normalizza_nome_cliente p.Descrizione_Avere ≠ NDtok) :=
  ⟨(C2_threshold_and_ND _ 0 (1/2)).1,
   (C2_threshold_and_ND _ 0 (1/2)).2 (by norm_num)⟩

/-! ## C3: the two-level best-candidate selection -/

/-- C3: for every debit entry processed by the engine, the inner scan over
the unconsumed credit candidates that pass the tolerance and threshold
checks selects a candidate of maximal similarity; among candidates tied on
similarity it selects one with minimal amount difference; and a candidate
that ties on both never replaces the current best: every candidate scanned
before the selected one is strictly worse in the two-level ordering (so the
first optimum seen wins), and if no candidate exists nothing is selected. -/
theorem C3_best_candidate (tolleranza soglia_similarita : ℚ)
    (id_usati_credito : List Nat) (d : Lavoro) (cs : List Lavoro) :
    ((scanCrediti tolleranza soglia_similarita cs id_usati_credito d).miglior_match
        = none →
      ∀ c ∈ cs, ¬ isCandidate tolleranza soglia_similarita id_usati_credito
        d.Nome_Norm d.Dare_Num c) ∧
    (∀ m, (scanCrediti tolleranza soglia_similarita cs id_usati_credito
        d).miglior_match = some m →
      ∃ pre post, cs = pre ++ m :: post ∧
        isCandidate tolleranza soglia_similarita id_usati_credito d.Nome_Norm
          d.Dare_Num m ∧
        (∀ c ∈ cs, isCandidate tolleranza soglia_similarita id_usati_credito
          d.Nome_Norm d.Dare_Num c → lexNoBetter d.Nome_Norm d.Dare_Num c m) ∧
        (∀ c ∈ pre, isCandidate tolleranza soglia_similarita id_usati_credito
          d.Nome_Norm d.Dare_Num c → lexWorse d.Nome_Norm d.Dare_Num c m)) := by
  constructor
  · exact fun h => scanCrediti_none h
  · intro m hm
    rcases scanCrediti_some hm with ⟨pre, post, hsplit, hcand, _, _, h6, h7⟩
    exact ⟨pre, post, hsplit, hcand, h6, h7⟩

unseal Rat.add Rat.mul Rat.sub Rat.inv in
/-- Witness for C3: a debit named `"ROSSI"` scanning two same-amount
credits named `"BIANCHI"` and `"ROSSI"` selects the `"ROSSI"` one. -/
theorem C3_witness :
    ∃ pre post,
      [(⟨1, .other, .other, 0, 1, 1, "BIANCHI".toList⟩ : Lavoro),
       ⟨2, .other, .other, 0, 1, 1, "ROSSI".toList⟩] =
        pre ++ (⟨2, .other, .other, 0, 1, 1, "ROSSI".toList⟩ : Lavoro) :: post ∧
      isCandidate 0 0 [] "ROSSI".toList 1
        ⟨2, .other, .other, 0, 1, 1, "ROSSI".toList⟩ ∧
      (∀ c ∈ [(⟨1, .other, .other, 0, 1, 1, "BIANCHI".toList⟩ : Lavoro),
              ⟨2, .other, .other, 0, 1, 1, "ROSSI".toList⟩],
        isCandidate 0 0 [] "ROSSI".toList 1 c →
        lexNoBetter "ROSSI".toList 1 c
          ⟨2, .other, .other, 0, 1, 1, "ROSSI".toList⟩) ∧
      (∀ c ∈ pre, isCandidate 0 0 [] "ROSSI".toList 1 c →
        lexWorse "ROSSI".toList 1 c
          ⟨2, .other, .other, 0, 1, 1, "ROSSI".toList⟩) :=
  (C3_best_candidate 0 0 [] ⟨0, .other, .other, 1, 0, 1, "ROSSI".toList⟩
      [⟨1, .other, .other, 0, 1, 1, "BIANCHI".toList⟩,
       ⟨2, .other, .other, 0, 1, 1, "ROSSI".toList⟩]).2
    ⟨2, .other, .other, 0, 1, 1, "ROSSI".toList⟩ (by decide)

/-! ## C9: non-string descriptions normalize to the sentinel -/

/-- C9: for every input that is not a string, `normalizza_nome_cliente`
returns the sentinel token `"N/D"`, so non-textual descriptions are
structurally excluded from matching instead of raising. -/
theorem C9_non_string_gives_ND (v : PyVal) (h : v.isStr = false) :
    normalizza_nome_cliente v = NDtok := by
  cases v <;> simp_all [normalizza_nome_cliente, PyVal.isStr]

/-- Witness for C9 at the concrete non-string input `77`. -/
theorem C9_witness :
    (PyVal.int 77).isStr = false ∧ normalizza_nome_cliente (.int 77) = NDtok :=
  ⟨rfl, C9_non_string_gives_ND (.int 77) rfl⟩

/-! ## C8: determinism -/

/-- C8: `riconcilia_transazioni` is a deterministic pure function of
`(entries, tolerance, similarity_threshold)`: two runs with identical input
ordering and identical parameters produce identical `(pairs, residue)`
outputs. -/
theorem C8_deterministic (df : List Entry) (tolleranza soglia_similarita : ℚ)
    (out₁ out₂ : List Pair × List Entry)
    (h₁ : out₁ = riconcilia_transazioni df tolleranza soglia_similarita)
    (h₂ : out₂ = riconcilia_transazioni df tolleranza soglia_similarita) :
    out₁ = out₂ :=
  h₁.trans h₂.symm

/-- Witness for C8: two runs on a concrete one-entry frame. -/
theorem C8_witness :
    riconcilia_transazioni [⟨.other, .str "ROSSI".toList, 1, 0⟩] 0 0 =
      riconcilia_transazioni [⟨.other, .str "ROSSI".toList, 1, 0⟩] 0 0 :=
  C8_deterministic [⟨.other, .str "ROSSI".toList, 1, 0⟩] 0 0 _ _ rfl rfl

/-! ## C7: the amount parser is total and lenient -/

/-- C7: `pulisci_valuta` is total and never raises: every numeric input is
returned as a float unchanged, and every textual input whose cleaned form
is empty or fails to parse as a float yields `0.0` instead of an error. -/
theorem C7_pulisci_lenient (n : Int) (q : ℚ) (s : List Char)
    (h : cleanValuta s = [] ∨ parsePyFloat (cleanValuta s) = none) :
    pulisci_valuta (.int n) = (n : ℚ) ∧ pulisci_valuta (.float q) = q ∧
      pulisci_valuta (.str s) = 0 := by
  refine ⟨rfl, rfl, ?_⟩
  simp only [pulisci_valuta]
  rcases h with h | h <;> simp [h]

/-- Witness for C7 at the concrete unparseable input `"abc"`. -/
theorem C7_witness :
    (cleanValuta "abc".toList = [] ∨ parsePyFloat (cleanValuta "abc".toList) = none) ∧
      (pulisci_valuta (.int 5) = (5 : ℚ) ∧ pulisci_valuta (.float 7) = 7 ∧
        pulisci_valuta (.str "abc".toList) = 0) :=
  ⟨Or.inl (by decide), C7_pulisci_lenient 5 7 "abc".toList (Or.inl (by decide))⟩

/-! ## Stability of the normalizer's output -/

/-- `pyUpper` is idempotent. -/
theorem pyUpper_idem (c : Char) : pyUpper (pyUpper c) = pyUpper c := by
  unfold pyUpper
  by_cases h : ('a' ≤ c && c ≤ 'z') = true
  · rw [if_pos h]
    simp only [Bool.and_eq_true, decide_eq_true_eq] at h
    have h1 : 97 ≤ c.toNat := h.1
    have h2 : c.toNat ≤ 122 := h.2
    have hv : (c.toNat - 32).isValidChar := Or.inl (by omega)
    have ht : (Char.ofNat (c.toNat - 32)).toNat = c.toNat - 32 := by
      unfold Char.ofNat
      rw [dif_pos hv]
      rfl
    rw [if_neg ?_]
    simp only [Bool.and_eq_true, decide_eq_true_eq, not_and]
    intro hle
    have : 97 ≤ (Char.ofNat (c.toNat - 32)).toNat := hle
    omega
  · rw [if_neg h, if_neg h]

/-- Mapping a function that fixes every element is the identity. -/
theorem map_fixed_eq_self {f : Char → Char} :
    ∀ {l : List Char}, (∀ x ∈ l, f x = x) → l.map f = l
  | [], _ => rfl
  | c :: cs, h => by
    simp only [List.map_cons]
    rw [h c (List.mem_cons_self c cs),
      map_fixed_eq_self (fun x hx => h x (List.mem_cons_of_mem c hx))]

/-- Whole-word removal only removes characters. -/
theorem mem_subWordAux (w : List Char) :
    ∀ (fuel : Nat) (prev : Option Char) (s : List Char) (c : Char),
      c ∈ subWordAux w fuel prev s → c ∈ s
  | 0, _, [], c, h => absurd h (by exact List.not_mem_nil c)
  | _ + 1, _, [], c, h => absurd h (by exact List.not_mem_nil c)
  | 0, _, _ :: _, _, h => h
  | fuel + 1, prev, d :: rest, c, h => by
    unfold subWordAux at h
    split at h
    · exact List.mem_of_mem_drop (mem_subWordAux w fuel _ _ c h)
    · rcases List.mem_cons.mp h with rfl | h
      · exact List.mem_cons_self c rest
      · exact List.mem_cons_of_mem d (mem_subWordAux w fuel _ _ c h)

/-- The noise-word pass only removes characters. -/
theorem mem_foldSubWord :
    ∀ (ws : List (List Char)) (s : List Char) (c : Char),
      c ∈ ws.foldl (fun n w => subWord w n) s → c ∈ s
  | [], _, _, h => h
  | w :: ws, s, c, h =>
    mem_subWordAux w s.length none s c (mem_foldSubWord ws (subWord w s) c h)

/-- The boilerplate-prefix strip only removes characters. -/
theorem mem_stripPrefBVS {s : List Char} {c : Char}
    (h : c ∈ stripPrefBVS s) : c ∈ s := by
  unfold stripPrefBVS at h
  simp only at h
  split at h
  · next r heq =>
    split at heq
    · split at heq
      · have hr := Option.some.inj heq
        subst hr
        have h2 := ((List.dropWhile_suffix isPySpace).sublist.subset h)
        have h3 := (List.drop_subset _ _) h2
        have h4 := ((List.dropWhile_suffix isPySpace).sublist.subset h3)
        exact (List.drop_subset _ _) h4
      · cases heq
    · cases heq
  · split at h
    · have h2 := ((List.dropWhile_suffix isPySpace).sublist.subset h)
      exact (List.drop_subset _ _) h2
    · exact h

/-- Collapsing only introduces plain spaces. -/
theorem mem_collapseWsAux :
    ∀ (b : Bool) (s : List Char) (c : Char),
      c ∈ collapseWsAux b s → c = ' ' ∨ c ∈ s
  | _, [], _, h => absurd h (List.not_mem_nil _)
  | b, d :: rest, c, h => by
    unfold collapseWsAux at h
    split at h
    · split at h
      · rcases mem_collapseWsAux true rest c h with h | h
        · exact Or.inl h
        · exact Or.inr (List.mem_cons_of_mem d h)
      · rcases List.mem_cons.mp h with rfl | h
        · exact Or.inl rfl
        · rcases mem_collapseWsAux true rest c h with h | h
          · exact Or.inl h
          · exact Or.inr (List.mem_cons_of_mem d h)
    · rcases List.mem_cons.mp h with rfl | h
      · exact Or.inr (List.mem_cons_self c rest)
      · rcases mem_collapseWsAux false rest c h with h | h
        · exact Or.inl h
        · exact Or.inr (List.mem_cons_of_mem d h)

/-- Stripping only removes characters. -/
theorem mem_stripWs {s : List Char} {c : Char} (h : c ∈ stripWs s) : c ∈ s := by
  unfold stripWs at h
  rw [List.mem_reverse] at h
  have h2 := ((List.dropWhile_suffix isPySpace).sublist.subset h)
  rw [List.mem_reverse] at h2
  exact ((List.dropWhile_suffix isPySpace).sublist.subset h2)

/-- Every character of a normalized token is fixed by `pyUpper`. -/
theorem norm_char_upper (v : PyVal) :
    ∀ c ∈ normalizza_nome_cliente v, pyUpper c = c := by
  cases v with
  | str d =>
    intro c hc
    simp only [normalizza_nome_cliente, normalizzaList] at hc
    split at hc
    · simp only [NDtok] at hc
      fin_cases hc <;> decide
    · have h1 := mem_stripWs hc
      rcases mem_collapseWsAux false _ c h1 with rfl | h2
      · decide
      · have h3 := mem_foldSubWord parole_da_rimuovere _ c h2
        have h4 := mem_stripPrefBVS h3
        rcases List.mem_map.mp h4 with ⟨x, _, rfl⟩
        exact pyUpper_idem x
  | int n =>
    intro c hc
    simp only [normalizza_nome_cliente, NDtok] at hc
    fin_cases hc <;> decide
  | float q =>
    intro c hc
    simp only [normalizza_nome_cliente, NDtok] at hc
    fin_cases hc <;> decide
  | other =>
    intro c hc
    simp only [normalizza_nome_cliente, NDtok] at hc
    fin_cases hc <;> decide

/-- The normalized token is fixed by the upper-case pass. -/
theorem map_pyUpper_norm (v : PyVal) :
    (normalizza_nome_cliente v).map pyUpper = normalizza_nome_cliente v :=
  map_fixed_eq_self (norm_char_upper v)

/-- Every whitespace character in the output of the collapse pass is a
plain space. -/
theorem collapse_space_char :
    ∀ (b : Bool) (s : List Char) (c : Char),
      c ∈ collapseWsAux b s → isPySpace c = true → c = ' '
  | _, [], c, h, _ => absurd h (by exact List.not_mem_nil c)
  | b, d :: rest, c, h, hsp => by
    unfold collapseWsAux at h
    by_cases hd : isPySpace d = true
    · rw [if_pos hd] at h
      cases b with
      | true =>
        rw [if_pos rfl] at h
        exact collapse_space_char true rest c h hsp
      | false =>
        rw [if_neg (by simp)] at h
        rcases List.mem_cons.mp h with rfl | h
        · rfl
        · exact collapse_space_char true rest c h hsp
    · rw [if_neg hd] at h
      rcases List.mem_cons.mp h with rfl | h
      · exact absurd hsp hd
      · exact collapse_space_char false rest c h hsp

/-- The collapse pass never emits two adjacent whitespace characters, and
in a run the next emitted character is not whitespace. -/
theorem collapse_chain :
    ∀ s : List Char,
      ((collapseWsAux false s).Chain'
          (fun x y => ¬(isPySpace x = true ∧ isPySpace y = true)) ∧
        (collapseWsAux true s).Chain'
          (fun x y => ¬(isPySpace x = true ∧ isPySpace y = true))) ∧
      ∀ c, (collapseWsAux true s).head? = some c → isPySpace c = false
  | [] => ⟨⟨List.chain'_nil, List.chain'_nil⟩, fun _ h => by cases h⟩
  | d :: rest => by
    have ih := collapse_chain rest
    by_cases hd : isPySpace d = true
    · have e1 : collapseWsAux false (d :: rest) = ' ' :: collapseWsAux true rest := by
        rw [collapseWsAux, if_pos hd, if_neg (by simp)]
      have e2 : collapseWsAux true (d :: rest) = collapseWsAux true rest := by
        rw [collapseWsAux, if_pos hd, if_pos rfl]
      refine ⟨⟨?_, ?_⟩, ?_⟩
      · rw [e1]
        refine List.chain'_cons'.mpr ⟨?_, ih.1.2⟩
        intro y hy hcon
        have hns := ih.2 y (Option.mem_def.mp hy)
        rw [hns] at hcon
        exact Bool.false_ne_true hcon.2
      · rw [e2]
        exact ih.1.2
      · intro c h
        rw [e2] at h
        exact ih.2 c h
    · have hdf : isPySpace d = false := Bool.eq_false_iff.mpr hd
      have e3 : ∀ b, collapseWsAux b (d :: rest) = d :: collapseWsAux false rest := by
        intro b
        rw [collapseWsAux, if_neg hd]
      refine ⟨⟨?_, ?_⟩, ?_⟩
      · rw [e3 false]
        refine List.chain'_cons'.mpr ⟨?_, ih.1.1⟩
        intro y _ hcon
        rw [hdf] at hcon
        exact Bool.false_ne_true hcon.1
      · rw [e3 true]
        refine List.chain'_cons'.mpr ⟨?_, ih.1.1⟩
        intro y _ hcon
        rw [hdf] at hcon
        exact Bool.false_ne_true hcon.1
      · intro c h
        rw [e3 true] at h
        exact (Option.some.inj h) ▸ hdf

/-- The output of the collapse pass satisfies the collapsed-string
invariant. -/
theorem collapsed_collapseWs (s : List Char) : Collapsed (collapseWs s) :=
  ⟨fun c hc hsp => collapse_space_char false s c hc hsp, (collapse_chain s).1.1⟩

/-- Stripping preserves the collapsed-string invariant. -/
theorem collapsed_stripWs {s : List Char} (h : Collapsed s) :
    Collapsed (stripWs s) := by
  refine ⟨fun c hc hsp => h.1 c (mem_stripWs hc) hsp, ?_⟩
  have himp : ∀ {l : List Char},
      l.Chain' (fun x y => ¬(isPySpace x = true ∧ isPySpace y = true)) →
      l.reverse.Chain' (fun x y => ¬(isPySpace x = true ∧ isPySpace y = true)) := by
    intro l hl
    refine List.chain'_reverse.mpr (hl.imp ?_)
    intro a b hab hcon
    exact hab ⟨hcon.2, hcon.1⟩
  have h1 := h.2.suffix (List.dropWhile_suffix isPySpace)
  have h2 := (himp h1).suffix (List.dropWhile_suffix isPySpace)
  exact himp h2

/-- On a collapsed string the collapse pass is the identity (and also in
run mode, provided the head is not a space). -/
theorem collapseWsAux_of_collapsed :
    ∀ s : List Char,
      (∀ c ∈ s, isPySpace c = true → c = ' ') →
      s.Chain' (fun x y => ¬(isPySpace x = true ∧ isPySpace y = true)) →
      collapseWsAux false s = s ∧
        ((∀ c, s.head? = some c → isPySpace c = false) →
          collapseWsAux true s = s)
  | [], _, _ => ⟨rfl, fun _ => rfl⟩
  | d :: rest, hchars, hchain => by
    have hsplit := List.chain'_cons'.mp hchain
    have ih := collapseWsAux_of_collapsed rest
      (fun c hc => hchars c (List.mem_cons_of_mem d hc)) hsplit.2
    by_cases hd : isPySpace d = true
    · have hds : d = ' ' := hchars d (List.mem_cons_self d rest) hd
      have hrest : ∀ c, rest.head? = some c → isPySpace c = false := by
        intro c hc
        have := hsplit.1 c (Option.mem_def.mpr hc)
        by_contra hcon
        rw [Bool.not_eq_false] at hcon
        exact this ⟨hd, hcon⟩
      constructor
      · show collapseWsAux false (d :: rest) = d :: rest
        unfold collapseWsAux
        rw [if_pos hd, if_neg (by simp), ih.2 hrest, hds]
      · intro hcond
        have := hcond d rfl
        rw [hd] at this
        cases this
    · have e3 : ∀ b, collapseWsAux b (d :: rest) = d :: collapseWsAux false rest := by
        intro b
        rw [collapseWsAux, if_neg hd]
      exact ⟨by rw [e3 false, ih.1], fun _ => by rw [e3 true, ih.1]⟩

/-- The last character of a stripped string is never whitespace. -/
theorem stripWs_getLast {s : List Char} {c : Char}
    (h : (stripWs s).getLast? = some c) : isPySpace c = false := by
  unfold stripWs at h
  rw [List.getLast?_reverse] at h
  have := List.head?_dropWhile_not isPySpace (s.dropWhile isPySpace).reverse
  rw [h] at this
  exact this

/-- The first character of a stripped string is never whitespace. -/
theorem stripWs_head {s : List Char} {c : Char}
    (h : (stripWs s).head? = some c) : isPySpace c = false := by
  unfold stripWs at h
  rw [List.head?_reverse] at h
  set t := (s.dropWhile isPySpace).reverse with ht
  have hne : t.dropWhile isPySpace ≠ [] := by
    intro hnil
    rw [hnil] at h
    cases h
  have hsplit : t.takeWhile isPySpace ++ t.dropWhile isPySpace = t :=
    List.takeWhile_append_dropWhile isPySpace t
  have h2 : (t.dropWhile isPySpace).getLast? = t.getLast? := by
    conv_rhs => rw [← hsplit]
    rw [List.getLast?_append_of_ne_nil _ hne]
  rw [h2, ht, List.getLast?_reverse] at h
  have := List.head?_dropWhile_not isPySpace s
  rw [h] at this
  exact this

/-- Stripping is the identity when both ends are not whitespace. -/
theorem stripWs_of_ends {s : List Char}
    (h1 : ∀ c, s.head? = some c → isPySpace c = false)
    (h2 : ∀ c, s.getLast? = some c → isPySpace c = false) :
    stripWs s = s := by
  cases s with
  | nil => rfl
  | cons a l =>
    have ha : isPySpace a = false := h1 a rfl
    unfold stripWs
    rw [List.dropWhile_cons, if_neg (by rw [ha]; exact Bool.false_ne_true)]
    have hrev : ((a :: l).reverse).dropWhile isPySpace = (a :: l).reverse := by
      rcases hr : (a :: l).reverse with _ | ⟨b, r⟩
      · rfl
      · have hb : (a :: l).getLast? = some b := by
          rw [← List.head?_reverse, hr]
          rfl
        rw [List.dropWhile_cons,
          if_neg (by rw [h2 b hb]; exact Bool.false_ne_true)]
    rw [hrev, List.reverse_reverse]

/-- Stripping after collapsing is idempotent. -/
theorem SC_idem (y : List Char) :
    stripWs (collapseWs (stripWs (collapseWs y))) = stripWs (collapseWs y) := by
  set r := stripWs (collapseWs y) with hr
  have hcol : Collapsed r := collapsed_stripWs (collapsed_collapseWs y)
  have hfix : collapseWs r = r := (collapseWsAux_of_collapsed r hcol.1 hcol.2).1
  rw [hfix]
  exact stripWs_of_ends (fun c hc => stripWs_head (hr ▸ hc))
    (fun c hc => stripWs_getLast (hr ▸ hc))

/-- A normalized token is fixed by the final collapse-and-strip pass. -/
theorem norm_fix (v : PyVal) :
    stripWs (collapseWs (normalizza_nome_cliente v)) =
      normalizza_nome_cliente v := by
  cases v with
  | str d =>
    show stripWs (collapseWs (normalizzaList d)) = normalizzaList d
    unfold normalizzaList
    simp only
    split
    · decide
    · exact SC_idem _
  | int n =>
    show stripWs (collapseWs NDtok) = NDtok
    decide
  | float q =>
    show stripWs (collapseWs NDtok) = NDtok
    decide
  | other =>
    show stripWs (collapseWs NDtok) = NDtok
    decide

/-- A normalized token is never the empty string. -/
theorem norm_ne_nil (v : PyVal) : normalizza_nome_cliente v ≠ [] := by
  cases v with
  | str d =>
    show normalizzaList d ≠ []
    unfold normalizzaList
    simp only
    split
    · decide
    · next h => exact h
  | int n =>
    show NDtok ≠ []
    decide
  | float q =>
    show NDtok ≠ []
    decide
  | other =>
    show NDtok ≠ []
    decide

/-! ## C5: the normalizer is not idempotent -/

/-- C5 counterexample: on the description `"S&NC"` the normalizer returns
`"SNC"` (the noise word `&` is removed, creating the new noise word `SNC`),
and a second application collapses that to the sentinel `"N/D"`; the two
sides of the claimed idempotence equation differ. -/
theorem C5_counterexample :
    normalizza_nome_cliente (.str (normalizza_nome_cliente (.str "S&NC".toList))) ≠
      normalizza_nome_cliente (.str "S&NC".toList) := by decide

/-- C5 (amended): the normalizer is idempotent on every description whose
normalized token is itself left unchanged by the boilerplate-prefix strip
and by the noise-word removal passes.  (In general a second application
can strip further, as the counterexample `"S&NC"` shows.) -/
theorem C5_norm_idem_stable (v : PyVal)
    (h1 : stripPrefBVS (normalizza_nome_cliente v) = normalizza_nome_cliente v)
    (h2 : parole_da_rimuovere.foldl (fun n w => subWord w n)
        (normalizza_nome_cliente v) = normalizza_nome_cliente v) :
    normalizza_nome_cliente (.str (normalizza_nome_cliente v)) =
      normalizza_nome_cliente v := by
  show normalizzaList (normalizza_nome_cliente v) = _
  unfold normalizzaList
  simp only
  rw [map_pyUpper_norm v, h1, h2, norm_fix v, if_neg (norm_ne_nil v)]

/-- Witness for C5: the description `"ROSSI"` satisfies both stability
hypotheses and the normalizer is idempotent on it. -/
theorem C5_witness :
    (stripPrefBVS (normalizza_nome_cliente (.str "ROSSI".toList)) =
        normalizza_nome_cliente (.str "ROSSI".toList) ∧
      parole_da_rimuovere.foldl (fun n w => subWord w n)
          (normalizza_nome_cliente (.str "ROSSI".toList)) =
        normalizza_nome_cliente (.str "ROSSI".toList)) ∧
    normalizza_nome_cliente
        (.str (normalizza_nome_cliente (.str "ROSSI".toList))) =
      normalizza_nome_cliente (.str "ROSSI".toList) :=
  ⟨⟨by decide, by decide⟩,
    C5_norm_idem_stable (.str "ROSSI".toList) (by decide) (by decide)⟩

/-! ## C6: the scorer is not symmetric -/

unseal Rat.add Rat.mul Rat.sub Rat.inv in
/-- C6 counterexample: `SequenceMatcher`'s greedy block choice is order
dependent, so the ratio is not symmetric: on the token pair
`("BYRD", "BRADY")` it yields `4/9` one way and `2/3` the other. -/
theorem C6_counterexample :
    SeqM.ratio "BYRD".toList "BRADY".toList ≠
      SeqM.ratio "BRADY".toList "BYRD".toList := by decide

/-! ## C1: the outputs do not always partition the input -/

unseal Rat.add Rat.mul Rat.sub Rat.inv in
/-- C1 counterexample: an entry carrying both a positive debit and a
positive credit amount enters both pools and is paired with itself, so it
is counted on both sides of one pair: with one such entry the partition
count `2·|pairs| + |residue|` is `2`, not `1`. -/
theorem C1_counterexample :
    2 * (riconcilia_transazioni [⟨.other, .str "A".toList, 1, 1⟩] 0 0).1.length +
        (riconcilia_transazioni [⟨.other, .str "A".toList, 1, 1⟩] 0 0).2.length ≠
      [(⟨.other, .str "A".toList, 1, 1⟩ : Entry)].length := by decide

/-! ## C2: the sentinel can be paired at threshold zero -/

unseal Rat.add Rat.mul Rat.sub Rat.inv in
/-- C2 counterexample: with `soglia_similarita = 0` the forced similarity
`0.0` still passes the inclusive comparison `similarita >= soglia`, so two
entries whose identity tokens are both `"N/D"` (non-string descriptions)
do form a pair. -/
theorem C2_counterexample :
    ((riconcilia_transazioni
        [⟨.other, .int 0, 1, 0⟩, ⟨.other, .int 1, 0, 1⟩] 0 0).1.map
      (fun p => (normalizza_nome_cliente p.Descrizione_Dare,
                 normalizza_nome_cliente p.Descrizione_Avere))) =
      [(NDtok, NDtok)] := by decide

end Contabilita
